import Mathlib

/-!
Verification of the contact ETL pipeline (`Tools.py`, `Contacts.py`,
`Contacts_Test.py`) against its natural-language specification.

The pipeline state is shallowly embedded: a pandas DataFrame row becomes a
`Rec` structure whose optional columns are `Option String` (with `none`
playing the role of NaN) and whose parsed create date is an `Option Nat`
(`none` playing the role of NaT; any order-isomorphic encoding of calendar
dates suffices for the sort/merge logic, which only compares dates).
External collaborators (the geocoding service, the `pycountry` table, the
`phonenumbers` parser, the HubSpot batch API) are taken as function
parameters, mirroring the spec's scope section.

Python string primitives used by the code (`str.split`, `str.join`,
`str.strip`, `sorted`) are modelled by executable Lean functions over
`String.data`; Python's `sorted` on strings compares code points, which is
the lexicographic order `charListLe` below.
-/

/-- Lexicographic code-point comparison of char lists; this is the order
Python's `sorted` uses on strings. -/
def charListLe : List Char → List Char → Bool
  | [], _ => true
  | _ :: _, [] => false
  | a :: as, b :: bs => if a < b then true else if b < a then false else charListLe as bs

/-- The corresponding order on `String` (via the underlying char list). -/
def strLe (a b : String) : Prop := charListLe a.data b.data = true

instance : DecidableRel strLe := fun a b => instDecidableEqBool (charListLe a.data b.data) true

/-- Python `sorted` on a list of strings. -/
def sortStrings (l : List String) : List String := List.insertionSort strLe l

/-- Python `sep.join(parts)` for `sep = ";"`. -/
def joinSemis : List String → String
  | [] => ""
  | [s] => s
  | s :: rest => s ++ ";" ++ joinSemis rest

/-- Python single-character `str.split(c)`: always returns at least one
(possibly empty) component; `"".split(c) = [""]`. -/
def splitOnChar (c : Char) : List Char → List (List Char)
  | [] => [[]]
  | a :: rest =>
    if a = c then [] :: splitOnChar c rest
    else
      match splitOnChar c rest with
      | [] => [[a]]
      | h :: t => (a :: h) :: t

/-- Python `s.split(";")`. -/
def splitSemis (s : String) : List String := (splitOnChar ';' s.data).map fun cs => ⟨cs⟩

/-- Strip every leading and trailing character satisfying `pred`
(the behaviour of Python `str.strip(chars)`). -/
def pyStrip (pred : Char → Bool) (l : List Char) : List Char :=
  ((l.dropWhile pred).reverse.dropWhile pred).reverse

/-- Python `s.strip(";")`. -/
def stripSemis (s : String) : String := ⟨pyStrip (fun c => c = ';') s.data⟩

/-- Python `s.strip()` (whitespace). -/
def stripWs (s : String) : String := ⟨pyStrip Char.isWhitespace s.data⟩

/-- The apostrophe character, as used by `get_country_from_city`'s quote strip. -/
def quoteChar : Char := Char.ofNat 39

/-- Python `s.strip(quote)` as performed on the city input. -/
def stripQuotes (s : String) : String := ⟨pyStrip (fun c => c = quoteChar) s.data⟩

/-- A contact record: one row of the pipeline DataFrame.  `none` models a
pandas NaN/NaT cell.  The last four columns exist in the frame (they are
carried through `merge_duplicates` untouched, per the code's explicit
backfill column list) but only matter to the load stage. -/
structure Rec where
  hs_object_id : Option String
  firstname : Option String
  lastname : Option String
  raw_email : Option String
  address : Option String
  industry : Option String
  technical_test___create_date : Option Nat
  phone : Option String
  country : Option String
  city : Option String
  country_code : Option String
deriving DecidableEq

/-- Backfill of one string column (`Tools.py` lines 96-98): the primary's
cell is replaced only when it is NaN and the older row's cell is neither
NaN nor the empty string. -/
def fillStr (p m : Option String) : Option String :=
  match p with
  | some v => some v
  | none =>
    match m with
    | some s => if s = "" then none else some s
    | none => none

/-- Backfill of the parsed create-date column: a `Timestamp` is never equal
to `""` in Python, so the only conditions are NaT on the primary side and
non-NaT on the row side. -/
def fillDate (p m : Option Nat) : Option Nat :=
  match p with
  | some v => some v
  | none => m

/-- One iteration of the backfill loop body over the seven listed columns
(`hs_object_id`, `firstname`, `lastname`, `raw_email`, `address`,
`industry`, `technical_test___create_date`). -/
def backfillRow (p r : Rec) : Rec :=
  { p with
    hs_object_id := fillStr p.hs_object_id r.hs_object_id
    firstname := fillStr p.firstname r.firstname
    lastname := fillStr p.lastname r.lastname
    raw_email := fillStr p.raw_email r.raw_email
    address := fillStr p.address r.address
    industry := fillStr p.industry r.industry
    technical_test___create_date :=
      fillDate p.technical_test___create_date r.technical_test___create_date }

/-- The industry components contributed by one record:
`r["industry"].split(";")` when the cell is not NaN, nothing otherwise. -/
def industriesOf (r : Rec) : List String :=
  match r.industry with
  | some s => splitSemis s
  | none => []

/-- `";" + ";".join(sorted(industry_set)).strip(";")` (`Tools.py` line 105);
the Python `set` is modelled by `dedup` followed by the canonical sort. -/
def formatIndustries (comps : List String) : String :=
  ";" ++ stripSemis (joinSemis (sortStrings comps.dedup))

/-- Merging one duplicate group (`Tools.py` lines 86-108): the most recent
record is the survivor; older rows backfill NaN cells; industry components
accumulate from every member and the survivor's industry is rewritten to the
formatted union. -/
def mergeGroup (p : Rec) (rest : List Rec) : Rec :=
  let filled := rest.foldl backfillRow p
  let comps := rest.foldl (fun acc r => acc ++ industriesOf r) (industriesOf p)
  { filled with industry := some (formatIndustries comps) }

/-- Comparison used by `sort_values(by="technical_test___create_date",
ascending=False)`: more recent first, NaT rows last. -/
def dateDescLe (a b : Rec) : Bool :=
  match a.technical_test___create_date, b.technical_test___create_date with
  | some x, some y => decide (y ≤ x)
  | some _, none => true
  | none, some _ => false
  | none, none => true

/-- The relation form of `dateDescLe`, for the sort. -/
def dateDescRel (a b : Rec) : Prop := dateDescLe a b = true

instance : DecidableRel dateDescRel := fun a b => instDecidableEqBool (dateDescLe a b) true

/-- The descending-by-create-date sort of the frame.  (`sort_values` uses an
unstable quicksort whose tie order is unspecified; we take the stable order,
which is also what the spec prescribes.  No claim depends on tie order.) -/
def sortByDateDesc (l : List Rec) : List Rec := List.insertionSort dateDescRel l

/-- `group = df[df[keycol] == k]` in original row order. -/
def groupFor (s : List Rec) (key : Rec → Option String) (k : String) : List Rec :=
  s.filter fun r => decide (key r = some k)

/-- The merged survivor for key `k`, or `none` for an empty group (which
never arises: keys are read off the rows themselves). -/
def groupMerge (s : List Rec) (key : Rec → Option String) (k : String) : Option Rec :=
  match groupFor s key k with
  | [] => none
  | p :: rest => some (mergeGroup p rest)

/-- The distinct grouping keys in the order pandas `groupby` (with its
default `sort=True`, `dropna=True`) iterates them: null keys are discarded
and the remaining distinct keys are sorted ascending. -/
def keysOf (key : Rec → Option String) (s : List Rec) : List String :=
  sortStrings (s.filterMap key).dedup

/-- `merge_by_key` (`Tools.py` lines 60-113): sort descending by create
date, group by the key column, merge each group. -/
def mergeByKey (key : Rec → Option String) (l : List Rec) : List Rec :=
  let s := sortByDateDesc l
  (keysOf key s).filterMap (groupMerge s key)

/-- The "Full Name" grouping key: `(df["firstname"] + df["lastname"]).fillna("")`.
pandas `+` propagates NaN, so the key is `""` whenever either name is NaN. -/
def fullNameKey (r : Rec) : String :=
  match r.firstname, r.lastname with
  | some f, some l => f ++ l
  | _, _ => ""

/-- The full-name key as a grouping column (never null after `fillna("")`). -/
def nameKeyF (r : Rec) : Option String := some (fullNameKey r)

/-- The email grouping key: the raw `raw_email` column (nullable). -/
def emailKeyF (r : Rec) : Option String := r.raw_email

/-- `merge_duplicates` (`Tools.py` lines 33-56).  The date column is already
parsed in `Rec` (step 1 of the algorithm; an unparsable date raises in
Python and is outside the embedded state).  The code then runs the
**email** pass first and feeds its result to the **full-name** pass, even
though its comments label the name pass "First Step". -/
def merge_duplicates (l : List Rec) : List Rec :=
  mergeByKey nameKeyF (mergeByKey emailKeyF l)

/-- Modelled from the spec: `mergeDuplicates` with the pass order prescribed
by §4.4 (full-name pass first, email pass second), which is absent from the
code under `src/`. -/
def mergeDuplicatesSpecOrder (l : List Rec) : List Rec :=
  mergeByKey emailKeyF (mergeByKey nameKeyF l)

/-- Models the region metadata of the external `phonenumbers` library for
the regions exercised by the spec's examples: the country calling code
assigned to an ISO alpha-2 region, as the digit string the code reads out
of `str(parsed_number)`. -/
def regionDialCode (region : String) : Option String :=
  if region = "IE" then some "353" else none

/-- Models `phonenumbers.parse(digits, region)` followed by reading the
parsed object's country code out of its `str()` form (`Tools.py` line 182):
a digit string without a `+` is attributed the default region's calling
code; an empty digit string or an unknown region raises
`NumberParseException`, modelled as `none`. -/
def parsePhone (digits : String) (region : String) : Option String :=
  if digits = "" then none else regionDialCode region

/-- Python `''.join(filter(str.isdigit, phone))`. -/
def digitsOnly (s : String) : String := ⟨s.data.filter Char.isDigit⟩

/-- Python `s.startswith(...)` over code points. -/
def startsWithChars (pre : List Char) (s : String) : Bool := pre.isPrefixOf s.data

/-- Python slicing `s[n:]` over code points. -/
def dropChars (n : Nat) (s : String) : String := ⟨s.data.drop n⟩

/-- The digit-cleaning steps of `format_phone_number` (`Tools.py` lines
167-175): keep digits, then drop a leading "00", then drop a leading "0". -/
def cleanedDigits (phone : String) : String :=
  let d0 := digitsOnly phone
  let d1 := if startsWithChars ['0', '0'] d0 then dropChars 2 d0 else d0
  if startsWithChars ['0'] d1 then dropChars 1 d1 else d1

/-- `format_phone_number` (`Tools.py` lines 152-188). -/
def format_phone_number (phone : String) (country_code : String) : String :=
  if phone = "" then "Phone number not provided"
  else
    match parsePhone (cleanedDigits phone) country_code with
    | some code => "(+" ++ code ++ ") " ++ cleanedDigits phone
    | none => "Could not parse the phone number"

/-- `location.address.split(",")[-1]`: the last comma-separated segment of
a geocoded formatted address. -/
def lastCommaSeg (s : String) : String := ⟨(splitOnChar ',' s.data).getLastD []⟩

/-- The compound-region rule of `get_country_code_from_city` (`Tools.py`
lines 137-138): when the segment contains a `/`, take the second
`/`-component, stripped. -/
def applySlashRule (n : String) : String :=
  if n.data.contains '/' then stripWs ⟨(splitOnChar '/' n.data).getD 1 []⟩ else n

/-- `get_country_from_city` (`Tools.py` lines 216-255), with the external
geocoder passed in as a function from a city name to the formatted address
of the best match (or `none` for a lookup miss).  The retry loop only
concerns the transient-unavailability exception of the geocoder transport
and is outside the embedded state; the embedded function is the per-call
behaviour. -/
def get_country_from_city (geocode : String → Option String) (city : Option String) : String :=
  match city with
  | none => "City not provided"
  | some c =>
    if c = "" then "City not provided"
    else
      match geocode (stripQuotes c) with
      | some addr => stripWs (lastCommaSeg addr)
      | none => "Country not found"

/-- `get_country_code_from_city` (`Tools.py` lines 116-149); `pycountryGet`
models the external `pycountry.countries.get(name=...)` table, returning
the alpha-2 code. -/
def get_country_code_from_city (geocode : String → Option String)
    (pycountryGet : String → Option String) (city : String) : String :=
  match geocode city with
  | some addr =>
    let n := applySlashRule (stripWs (lastCommaSeg addr))
    match pycountryGet n with
    | some cc => cc
    | none => "Country code not found in pycountry"
  | none => "City not found"

/-- One batch-upsert payload (`Tools.py` lines 446-460). -/
structure ContactPayload where
  email : String
  phone : String
  country : String
  city : String
  firstname : String
  lastname : String
  address : String
  original_create_date : Option Nat
  original_industry : String
  temporary_id : String
  hs_country_region_code : String
deriving DecidableEq

/-- The payload built from one row after `df.fillna("")` — `row.get(c, "")`
reads become `Option.getD ""`.  `original_create_date` keeps the parsed
date stamp (`pd.to_datetime(x).value // 10**6` is an order-isomorphic
re-encoding) and is `none` when the cell was empty. -/
def contactPayload (r : Rec) : ContactPayload :=
  { email := r.raw_email.getD ""
    phone := r.phone.getD ""
    country := r.country.getD ""
    city := r.city.getD ""
    firstname := r.firstname.getD ""
    lastname := r.lastname.getD ""
    address := r.address.getD ""
    original_create_date := r.technical_test___create_date
    original_industry :=
      match r.industry with
      | some s => if s = "" then "" else ";" ++ joinSemis (splitSemis s)
      | none => ""
    temporary_id := r.hs_object_id.getD ""
    hs_country_region_code := r.country_code.getD "" }

/-- Fuel-indexed chunking; with fuel at least the list length and a
positive chunk size this is exactly Python's
`for start in range(0, len(df), n): df.iloc[start:start+n]`. -/
def chunksOfAux (n : Nat) : Nat → List α → List (List α)
  | 0, _ => []
  | _, [] => []
  | fuel + 1, l@(_ :: _) => l.take n :: chunksOfAux n fuel (l.drop n)

/-- The batch chunks of a record list, chunk size `n`. -/
def chunksOf (n : Nat) (l : List α) : List (List α) := chunksOfAux n l.length l

/-- `HubSpotDataPipeline.load` (`Tools.py` lines 422-473): the frame is cut
into chunks of 100, each chunk becomes one batch API call, and the call's
outcome (`show_errors` on success, the caught `ApiException` on failure) is
recorded per chunk; a failing chunk does not stop the loop.  The external
batch API is the parameter `api`. -/
def load (api : List ContactPayload → Except String Unit) (df : List Rec) :
    List (Except String Unit) :=
  (chunksOf 100 df).map fun c => api (c.map contactPayload)

/-- All industry components contributed by a list of records, in order. -/
def industryComponents (g : List Rec) : List String :=
  g.foldr (fun r acc => industriesOf r ++ acc) []

/-- The spec-side backfill result for one string column: a present survivor
value is kept untouched; an absent one receives the first present,
non-empty value among the older members (and stays absent if there is
none).  This single equation packages the claim's three clauses: a value
is copied only into an absent cell and only from a present non-empty cell,
and once filled the cell is never overwritten again. -/
def backfillStr (p : Option String) (ms : List (Option String)) : Option String :=
  match p with
  | some v => some v
  | none => (ms.filterMap id).find? fun s => decide (s ≠ "")

/-- The spec-side backfill result for the create-date column: a present
value is kept; an absent one receives the first present member value. -/
def backfillDate (p : Option Nat) (ms : List (Option Nat)) : Option Nat :=
  match p with
  | some v => some v
  | none => (ms.filterMap id).head?

/-- Lowercasing, as used by the spec's words for the full-name key
(`lowercase(concat(firstName, lastName))`). -/
def lowerStr (s : String) : String := ⟨s.data.map Char.toLower⟩

/-- A record with only the merge-relevant columns set (id, first name, last
name, email, industry, create date); the rest NaN. -/
def mkRec (id fn ln em ind : Option String) (d : Option Nat) : Rec :=
  ⟨id, fn, ln, em, none, ind, d, none, none, none, none⟩

/-- C1 input: two same-named records; the more recent one has no email. -/
def c1r1 : Rec := mkRec (some "1") (some "Jane") (some "Doe") none (some "Tech") (some 20210601)

/-- C1 input: the older record, carrying the only email of the pair. -/
def c1r2 : Rec :=
  mkRec (some "2") (some "Jane") (some "Doe") (some "a@x.com") (some "Finance") (some 20210101)

/-- C2 input: a record whose resolved email is absent. -/
def c2r : Rec := mkRec (some "9") (some "Ann") (some "Lee") none (some "Tech") (some 20200101)

/-- C5 input: both names present. -/
def c5rBoth : Rec := mkRec (some "5") (some "Jane") (some "Doe") none none (some 20200101)

/-- C5 input: first name present, last name absent. -/
def c5rHalf : Rec := mkRec (some "6") (some "Jane") none none none (some 20200101)

/-- C7 input: full name, distinct email, most recent. -/
def c7r1 : Rec :=
  mkRec (some "1") (some "Jane") (some "Doe") (some "e1@x.com") (some "Tech") (some 20210601)

/-- C7 input: last name missing. -/
def c7r2 : Rec :=
  mkRec (some "2") (some "Jane") none (some "e2@x.com") (some "Fin") (some 20210501)

/-- C7 input: first name missing. -/
def c7r3 : Rec :=
  mkRec (some "3") none (some "Doe") (some "e3@x.com") (some "Retail") (some 20210401)

/-- A geocoder stub whose formatted address ends in a `/`-compound region
segment, as in the spec's compound-region rule. -/
def geoCompound : String → Option String := fun _ => some "Kadikoy, Istanbul / Turkiye"

/-- A country-code table stub knowing the second slash component only. -/
def tblCompound : String → Option String := fun n => if n = "Turkiye" then some "TR" else none

/-- A blank record (all columns NaN), for concrete instantiations. -/
def recBlank : Rec := mkRec none none none none none none

/-- A batch API stub that rejects every full chunk of 100 (in particular
the second chunk) and accepts the rest. -/
def failingSecondApi : List ContactPayload → Except String Unit :=
  fun c => if c.length = 100 then Except.error "boom" else Except.ok ()

/-- A record whose industry is the present-but-empty string. -/
def recIndEmpty : Rec := mkRec none none none none (some "") none

/-- A string contains no `';'`. -/
def semiFree (x : String) : Prop := ¬ ';' ∈ x.data

/-- The union of the group members' industry sets (their non-empty
`;`-components), canonically sorted: the spec's "sorted union". -/
def industryUnionSorted (g : List Rec) : List String :=
  (sortStrings (industryComponents g).dedup).filter fun x => decide (x ≠ "")

/-- The spec-side survivor industries: the sorted union joined with ";"
and prefixed with a leading ";". -/
def specIndustries (g : List Rec) : String := ";" ++ joinSemis (industryUnionSorted g)

/-- C4 example record A: Jane Doe, 2021-01-01, industry "Tech". -/
def jA : Rec := mkRec (some "A") (some "Jane") (some "Doe") none (some "Tech") (some 20210101)

/-- C4 example record B: Jane Doe, 2021-06-01, industry "Finance", the only
email of the pair. -/
def jB : Rec :=
  mkRec (some "B") (some "Jane") (some "Doe") (some "b@x.com") (some "Finance") (some 20210601)

/-- A record whose industry cell is already in the code's formatted shape
(a formatted union of `';'`-free components). -/
def CanonicalInd (r : Rec) : Prop :=
  ∃ comps : List String, (∀ x ∈ comps, semiFree x) ∧
    r.industry = some (formatIndustries comps)

/-- C1 (code_bug).  Claim: `mergeDuplicates` performs the full-name pass
first and feeds its result into the email pass.  The code (`Tools.py`
lines 50-54) does the opposite — the email pass runs first, then the
full-name pass — even though its own comments label the full-name pass
"First Step"; on the two-record input below the two orders produce
different survivors (the code order first drops the NaN-email record in
the email pass, so the older record survives). -/
theorem c1_email_pass_runs_first :
    merge_duplicates [c1r1, c1r2] =
      [⟨some "2", some "Jane", some "Doe", some "a@x.com", none, some ";Finance",
        some 20210101, none, none, none, none⟩] ∧
    mergeDuplicatesSpecOrder [c1r1, c1r2] =
      [⟨some "1", some "Jane", some "Doe", some "a@x.com", none, some ";Finance;Tech",
        some 20210601, none, none, none, none⟩] ∧
    merge_duplicates [c1r1, c1r2] ≠ mergeDuplicatesSpecOrder [c1r1, c1r2] := by
  refine ⟨by decide, by decide, by decide⟩

/-- C2 (code_bug).  Claim: in the email pass every record whose resolved
email is absent forms its own singleton group and still appears in the
pass's output.  In the code, pandas `groupby("raw_email")` silently drops
null-keyed rows (its `dropna=True` default), so a record with no email is
removed from the pass's output entirely: the pass maps the one-record frame
below to an empty frame. -/
theorem c2_absent_email_record_dropped :
    c2r.raw_email = none ∧ mergeByKey emailKeyF [c2r] = [] := by
  refine ⟨by decide, by decide⟩

/-- C5 (corrected), counterexample.  Claim: the full-name grouping key is
the lowercase concatenation of the names, and is empty exactly when both
names are absent.  The code lowercases nothing — the key of
("Jane", "Doe") is "JaneDoe", not "janedoe" — and pandas `+` propagates
NaN, so a record with only a first name already gets the empty key. -/
theorem c5_key_counterexample :
    fullNameKey c5rBoth = "JaneDoe" ∧ ("JaneDoe" : String) ≠ lowerStr ("Jane" ++ "Doe") ∧
    c5rHalf.firstname = some "Jane" ∧ c5rHalf.lastname = none ∧ fullNameKey c5rHalf = "" := by
  refine ⟨by decide, by decide, by decide, by decide, by decide⟩

/-- C7 (corrected), counterexample.  Claim: `mergeDuplicates` is idempotent.
On the three-record input below the first run backfills the missing last
name of the "" name-key group's survivor, giving it the full-name key
"JaneDoe"; a second run therefore merges it with the other "JaneDoe"
survivor: two survivors collapse to one. -/
theorem c7_not_idempotent_counterexample :
    (merge_duplicates [c7r1, c7r2, c7r3]).map Rec.hs_object_id = [some "2", some "1"] ∧
    (merge_duplicates (merge_duplicates [c7r1, c7r2, c7r3])).map Rec.hs_object_id =
      [some "1"] := by
  refine ⟨by decide, by decide⟩

/-- C8 (corrected), counterexample.  Claim: `cityToCountry` applies the
`/`-compound-region rule to the last comma segment.  The code's
`get_country_from_city` returns the last comma segment verbatim (stripped
of whitespace only); the slash rule lives solely in
`get_country_code_from_city`, which here maps the same geocoded address to
"TR" via the second slash component. -/
theorem c8_no_slash_rule_counterexample :
    get_country_from_city geoCompound (some "Kadikoy") = "Istanbul / Turkiye" ∧
    ("Istanbul / Turkiye" : String) ≠ "Turkiye" ∧
    get_country_code_from_city geoCompound tblCompound "Kadikoy" = "TR" := by
  refine ⟨by decide, by decide, by decide⟩

theorem chunksOfAux_nil (n f : Nat) : chunksOfAux n f ([] : List α) = [] := by
  cases f <;> rfl

theorem chunksOfAux_congr (n : Nat) (hn : 0 < n) :
    ∀ (f₁ : Nat) (l : List α) (f₂ : Nat), l.length ≤ f₁ → l.length ≤ f₂ →
      chunksOfAux n f₁ l = chunksOfAux n f₂ l := by
  intro f₁
  induction f₁ with
  | zero =>
    intro l f₂ h₁ _
    have hl : l = [] := List.eq_nil_of_length_eq_zero (Nat.le_zero.mp h₁)
    subst hl
    rw [chunksOfAux_nil, chunksOfAux_nil]
  | succ g ih =>
    intro l f₂ h₁ h₂
    cases l with
    | nil => rw [chunksOfAux_nil, chunksOfAux_nil]
    | cons a t =>
      cases f₂ with
      | zero => exact absurd h₂ (by simp)
      | succ g₂ =>
        show _ :: _ = _ :: _
        have hd : ((a :: t).drop n).length ≤ g := by
          rw [List.length_drop]
          omega
        have hd₂ : ((a :: t).drop n).length ≤ g₂ := by
          rw [List.length_drop]
          omega
        rw [ih ((a :: t).drop n) g₂ hd hd₂]

/-- Unfolding rule for `chunksOf` on a nonempty list with positive size. -/
theorem chunksOf_cons_eq (n : Nat) (hn : 0 < n) (l : List α) (hl : l ≠ []) :
    chunksOf n l = l.take n :: chunksOf n (l.drop n) := by
  cases l with
  | nil => exact absurd rfl hl
  | cons a t =>
    show chunksOfAux n (t.length + 1) (a :: t) = _
    show _ :: chunksOfAux n t.length ((a :: t).drop n) = _
    rw [chunksOfAux_congr n hn t.length ((a :: t).drop n) ((a :: t).drop n).length
      (by rw [List.length_drop, List.length_cons]; omega) (le_refl _)]
    rfl

theorem chunksOf_nil (n : Nat) : chunksOf n ([] : List α) = [] := rfl

/-- C9 (confirmed).  Claim: `Load` partitions the records into chunks of
100 and issues one batch call per chunk; 250 records mean exactly 3 calls
of sizes 100, 100 and 50, and a failure on the second call does not
prevent the third call from being attempted.  For any 250-record frame and
any batch API whose second-chunk call fails, the call trace has exactly
the three chunk calls, the second recording the failure and the third the
API's actual answer on the third chunk. -/
theorem c9_load_chunking (l : List Rec) (api : List ContactPayload → Except String Unit)
    (e : String) (h : l.length = 250)
    (hfail : api (((l.drop 100).take 100).map contactPayload) = Except.error e) :
    (chunksOf 100 l).map List.length = [100, 100, 50] ∧
    load api l =
      [api ((l.take 100).map contactPayload), Except.error e,
        api (((l.drop 100).drop 100).map contactPayload)] := by
  have h1 : l ≠ [] := by intro he; rw [he] at h; simp at h
  have hd1 : (l.drop 100).length = 150 := by rw [List.length_drop, h]
  have h2 : l.drop 100 ≠ [] := by intro he; rw [he] at hd1; simp at hd1
  have hd2 : ((l.drop 100).drop 100).length = 50 := by rw [List.length_drop, hd1]
  have h3 : (l.drop 100).drop 100 ≠ [] := by intro he; rw [he] at hd2; simp at hd2
  have hd3 : (((l.drop 100).drop 100).drop 100).length = 0 := by
    rw [List.length_drop, hd2]
  have h4 : ((l.drop 100).drop 100).drop 100 = [] :=
    List.eq_nil_of_length_eq_zero hd3
  have htake3 : ((l.drop 100).drop 100).take 100 = (l.drop 100).drop 100 :=
    List.take_of_length_le (by rw [hd2]; omega)
  have hch : chunksOf 100 l =
      [l.take 100, (l.drop 100).take 100, (l.drop 100).drop 100] := by
    rw [chunksOf_cons_eq 100 (by omega) l h1,
      chunksOf_cons_eq 100 (by omega) (l.drop 100) h2,
      chunksOf_cons_eq 100 (by omega) ((l.drop 100).drop 100) h3,
      h4, chunksOf_nil, htake3]
  constructor
  · rw [hch]
    simp [List.length_take, h, hd1, hd2]
  · unfold load
    rw [hch]
    simp only [List.map_cons, List.map_nil, hfail]

/-- Witness for C9: the 250 blank records, under an API failing on the
second chunk. -/
theorem c9_load_chunking_witness :
    (List.replicate 250 recBlank).length = 250 ∧
    ((chunksOf 100 (List.replicate 250 recBlank)).map List.length = [100, 100, 50] ∧
      load failingSecondApi (List.replicate 250 recBlank) =
        [failingSecondApi (((List.replicate 250 recBlank).take 100).map contactPayload),
          Except.error "boom",
          failingSecondApi
            ((((List.replicate 250 recBlank).drop 100).drop 100).map contactPayload)]) :=
  ⟨by rw [List.length_replicate],
    c9_load_chunking (List.replicate 250 recBlank) failingSecondApi "boom"
      (by rw [List.length_replicate])
      (by
        rw [List.drop_replicate, List.take_replicate, List.map_replicate]
        unfold failingSecondApi
        rw [List.length_replicate]
        norm_num)⟩

/-- C6 (code_bug).  Claim: `formatPhone` validates the parsed number
(surfacing `InvalidNumber` when invalid) and on success returns the
canonical international format beginning with "+" and the calling code; in
particular the Irish example should begin "+353".  The code never calls a
validity check — every successfully parsed input is returned, always in the
custom format "(+code) digits" — so the Irish example evaluates to
"(+353) 891234567", which does not begin with "+353".  The empty-input
sentinel (`MissingNumber`) is the one part the code honours. -/
theorem c6_phone_format_code_bug :
    format_phone_number "0891234567" "IE" = "(+353) 891234567" ∧
    (∀ s : String, "(+353) 891234567" ≠ "+353" ++ s) ∧
    format_phone_number "" "IE" = "Phone number not provided" ∧
    (∀ phone cc : String,
      format_phone_number phone cc = "Phone number not provided" ∨
      format_phone_number phone cc = "Could not parse the phone number" ∨
      ∃ s : String, format_phone_number phone cc = "(+" ++ s) := by
  refine ⟨by decide, ?_, by decide, ?_⟩
  · intro s hs
    have h2 := congrArg String.data hs
    rw [String.data_append] at h2
    exact absurd (List.head_eq_of_cons_eq h2) (by decide)
  · intro phone cc
    unfold format_phone_number
    by_cases hp : phone = ""
    · simp [hp]
    · simp only [hp, if_false]
      cases hq : parsePhone (cleanedDigits phone) cc with
      | none => simp [hq]
      | some code =>
        simp only [hq]
        right; right
        exact ⟨code ++ (") " ++ cleanedDigits phone), by
          rw [String.append_assoc, String.append_assoc]⟩

example : sortStrings ["b", "a", ""] = ["", "a", "b"] := by decide
example : splitSemis ";Finance;Tech" = ["", "Finance", "Tech"] := by decide
example : splitSemis "" = [""] := by decide
example : formatIndustries ["Tech", "Finance"] = ";Finance;Tech" := by decide
example : formatIndustries [] = ";" := by decide
example : formatIndustries ["", "Tech"] = ";Tech" := by decide

theorem foldl_backfill_id (rest : List Rec) (p : Rec) :
    (rest.foldl backfillRow p).hs_object_id =
      rest.foldl (fun a r => fillStr a r.hs_object_id) p.hs_object_id := by
  induction rest generalizing p with
  | nil => rfl
  | cons r t ih => exact ih (backfillRow p r)

theorem foldl_backfill_firstname (rest : List Rec) (p : Rec) :
    (rest.foldl backfillRow p).firstname =
      rest.foldl (fun a r => fillStr a r.firstname) p.firstname := by
  induction rest generalizing p with
  | nil => rfl
  | cons r t ih => exact ih (backfillRow p r)

theorem foldl_backfill_lastname (rest : List Rec) (p : Rec) :
    (rest.foldl backfillRow p).lastname =
      rest.foldl (fun a r => fillStr a r.lastname) p.lastname := by
  induction rest generalizing p with
  | nil => rfl
  | cons r t ih => exact ih (backfillRow p r)

theorem foldl_backfill_email (rest : List Rec) (p : Rec) :
    (rest.foldl backfillRow p).raw_email =
      rest.foldl (fun a r => fillStr a r.raw_email) p.raw_email := by
  induction rest generalizing p with
  | nil => rfl
  | cons r t ih => exact ih (backfillRow p r)

theorem foldl_backfill_address (rest : List Rec) (p : Rec) :
    (rest.foldl backfillRow p).address =
      rest.foldl (fun a r => fillStr a r.address) p.address := by
  induction rest generalizing p with
  | nil => rfl
  | cons r t ih => exact ih (backfillRow p r)

theorem foldl_backfill_industry (rest : List Rec) (p : Rec) :
    (rest.foldl backfillRow p).industry =
      rest.foldl (fun a r => fillStr a r.industry) p.industry := by
  induction rest generalizing p with
  | nil => rfl
  | cons r t ih => exact ih (backfillRow p r)

theorem foldl_backfill_date (rest : List Rec) (p : Rec) :
    (rest.foldl backfillRow p).technical_test___create_date =
      rest.foldl (fun a r => fillDate a r.technical_test___create_date)
        p.technical_test___create_date := by
  induction rest generalizing p with
  | nil => rfl
  | cons r t ih => exact ih (backfillRow p r)

theorem foldl_fillStr_some (ms : List (Option String)) (v : String) :
    ms.foldl fillStr (some v) = some v := by
  induction ms with
  | nil => rfl
  | cons m t ih => exact ih

theorem foldl_fillDate_some (ms : List (Option Nat)) (v : Nat) :
    ms.foldl fillDate (some v) = some v := by
  induction ms with
  | nil => rfl
  | cons m t ih => exact ih

theorem foldl_fillStr_eq_backfillStr (ms : List (Option String)) (p : Option String) :
    ms.foldl fillStr p = backfillStr p ms := by
  cases p with
  | some v => rw [foldl_fillStr_some]; rfl
  | none =>
    induction ms with
    | nil => rfl
    | cons m t ih =>
      cases m with
      | none => exact ih
      | some s =>
        by_cases hs : s = ""
        · subst hs
          exact ih
        · have h1 : fillStr none (some s) = some s := by
            show (if s = "" then none else some s) = some s
            rw [if_neg hs]
          show t.foldl fillStr (fillStr none (some s)) = _
          rw [h1, foldl_fillStr_some]
          show some s = List.find? (fun x => decide (x ≠ "")) (s :: t.filterMap id)
          rw [List.find?_cons]
          simp [hs]

theorem foldl_fillDate_eq_backfillDate (ms : List (Option Nat)) (p : Option Nat) :
    ms.foldl fillDate p = backfillDate p ms := by
  cases p with
  | some v => rw [foldl_fillDate_some]; rfl
  | none =>
    induction ms with
    | nil => rfl
    | cons m t ih =>
      cases m with
      | none => exact ih
      | some v =>
        show t.foldl fillDate (some v) = some v
        exact foldl_fillDate_some t v

/-- C3 (confirmed).  Claim: during the merge of a duplicate group, each of
the seven backfillable columns is copied from an older member only when the
survivor's cell is absent (hence in particular absent-or-empty) and the
member's cell is present and non-empty; a present survivor cell is never
replaced by the backfill, and once filled a cell is never overwritten again
in the group.  All of this is packaged by the `backfillStr`/`backfillDate`
characterizations: the survivor's final cell is its own value when present,
else the first present non-empty value among the older members in recency
order.  (The industry column obeys the same rule inside the backfill loop;
its final value is then separately rewritten to the group union, which is
claim C4's subject.) -/
theorem c3_backfill_only_into_absent_cells (p : Rec) (rest : List Rec) :
    (mergeGroup p rest).hs_object_id =
      backfillStr p.hs_object_id (rest.map (·.hs_object_id)) ∧
    (mergeGroup p rest).firstname = backfillStr p.firstname (rest.map (·.firstname)) ∧
    (mergeGroup p rest).lastname = backfillStr p.lastname (rest.map (·.lastname)) ∧
    (mergeGroup p rest).raw_email = backfillStr p.raw_email (rest.map (·.raw_email)) ∧
    (mergeGroup p rest).address = backfillStr p.address (rest.map (·.address)) ∧
    (rest.foldl backfillRow p).industry = backfillStr p.industry (rest.map (·.industry)) ∧
    (mergeGroup p rest).technical_test___create_date =
      backfillDate p.technical_test___create_date
        (rest.map (·.technical_test___create_date)) := by
  refine ⟨?_, ?_, ?_, ?_, ?_, ?_, ?_⟩
  · show (rest.foldl backfillRow p).hs_object_id = _
    rw [foldl_backfill_id, ← List.foldl_map (fun r : Rec => r.hs_object_id) fillStr,
      foldl_fillStr_eq_backfillStr]
  · show (rest.foldl backfillRow p).firstname = _
    rw [foldl_backfill_firstname, ← List.foldl_map (fun r : Rec => r.firstname) fillStr,
      foldl_fillStr_eq_backfillStr]
  · show (rest.foldl backfillRow p).lastname = _
    rw [foldl_backfill_lastname, ← List.foldl_map (fun r : Rec => r.lastname) fillStr,
      foldl_fillStr_eq_backfillStr]
  · show (rest.foldl backfillRow p).raw_email = _
    rw [foldl_backfill_email, ← List.foldl_map (fun r : Rec => r.raw_email) fillStr,
      foldl_fillStr_eq_backfillStr]
  · show (rest.foldl backfillRow p).address = _
    rw [foldl_backfill_address, ← List.foldl_map (fun r : Rec => r.address) fillStr,
      foldl_fillStr_eq_backfillStr]
  · rw [foldl_backfill_industry, ← List.foldl_map (fun r : Rec => r.industry) fillStr,
      foldl_fillStr_eq_backfillStr]
  · show (rest.foldl backfillRow p).technical_test___create_date = _
    rw [foldl_backfill_date, ← List.foldl_map (fun r : Rec => r.technical_test___create_date) fillDate,
      foldl_fillDate_eq_backfillDate]

theorem foldl_append_industries (rest : List Rec) (init : List String) :
    rest.foldl (fun acc r => acc ++ industriesOf r) init = init ++ industryComponents rest := by
  induction rest generalizing init with
  | nil => show init = init ++ []; rw [List.append_nil]
  | cons r t ih =>
    show t.foldl _ (init ++ industriesOf r) = _
    rw [ih (init ++ industriesOf r)]
    show _ = init ++ (industriesOf r ++ industryComponents t)
    rw [List.append_assoc]

theorem mergeGroup_industry (p : Rec) (rest : List Rec) :
    (mergeGroup p rest).industry =
      some (formatIndustries (industryComponents (p :: rest))) := by
  show some (formatIndustries (rest.foldl _ (industriesOf p))) = _
  rw [foldl_append_industries]
  rfl

theorem mem_industryComponents {x : String} {g : List Rec} :
    x ∈ industryComponents g → ∃ r ∈ g, x ∈ industriesOf r := by
  induction g with
  | nil => intro h; exact absurd h (List.not_mem_nil x)
  | cons r t ih =>
    intro h
    rcases List.mem_append.mp h with h1 | h2
    · exact ⟨r, List.mem_cons_self r t, h1⟩
    · obtain ⟨r', hr', hx⟩ := ih h2
      exact ⟨r', List.mem_cons_of_mem r hr', hx⟩

theorem formatIndustries_all_empty {comps : List String}
    (h : ∀ x ∈ comps, x = "") : formatIndustries comps = ";" := by
  have hsub : ∀ x ∈ comps.dedup, x = "" := fun x hx => h x (List.mem_dedup.mp hx)
  have hnd : comps.dedup.Nodup := List.nodup_dedup comps
  cases hd : comps.dedup with
  | nil => rw [formatIndustries, hd]; rfl
  | cons a t =>
    cases t with
    | nil =>
      have ha : a = "" := hsub a (by rw [hd]; exact List.mem_cons_self a [])
      rw [formatIndustries, hd, ha]
      rfl
    | cons b t2 =>
      have ha : a = "" := hsub a (by rw [hd]; exact List.mem_cons_self _ _)
      have hb : b = "" := hsub b (by
        rw [hd]; exact List.mem_cons_of_mem _ (List.mem_cons_self _ _))
      rw [hd] at hnd
      rw [List.nodup_cons] at hnd
      exact absurd (ha.trans hb.symm) (fun he => hnd.1 (he ▸ List.mem_cons_self b t2))

/-- C10 (confirmed).  Claim: when no member of a duplicate group has a
present, non-empty industry value, the merged survivor's industry cell is
exactly the one-character string ";" — the leading-separator formatting
applied to an empty union. -/
theorem c10_empty_industry_union (p : Rec) (rest : List Rec)
    (h : ∀ r ∈ p :: rest, r.industry = none ∨ r.industry = some "") :
    (mergeGroup p rest).industry = some ";" := by
  rw [mergeGroup_industry]
  have hall : ∀ x ∈ industryComponents (p :: rest), x = "" := by
    intro x hx
    obtain ⟨r, hr, hxr⟩ := mem_industryComponents hx
    rcases h r hr with hn | he
    · rw [industriesOf, hn] at hxr
      exact absurd hxr (List.not_mem_nil x)
    · rw [industriesOf, he] at hxr
      have : x ∈ [""] := by
        simpa [splitSemis, splitOnChar] using hxr
      simpa using this
  rw [formatIndustries_all_empty hall]

/-- Witness for C10: a two-record group with one NaN industry and one
present-but-empty industry merges to the bare ";". -/
theorem c10_empty_industry_union_witness :
    (∀ r ∈ recBlank :: [recIndEmpty], r.industry = none ∨ r.industry = some "") ∧
    (mergeGroup recBlank [recIndEmpty]).industry = some ";" :=
  ⟨by decide, c10_empty_industry_union recBlank [recIndEmpty] (by decide)⟩

theorem charListLe_total : ∀ x y : List Char, charListLe x y = true ∨ charListLe y x = true := by
  intro x
  induction x with
  | nil => intro y; left; rfl
  | cons a as ih =>
    intro y
    cases y with
    | nil => right; rfl
    | cons b bs =>
      show (if a < b then true else if b < a then false else charListLe as bs) = true ∨
        (if b < a then true else if a < b then false else charListLe bs as) = true
      rcases lt_trichotomy a b with h | h | h
      · left; rw [if_pos h]
      · subst h
        rw [if_neg (lt_irrefl a), if_neg (lt_irrefl a), if_neg (lt_irrefl a),
          if_neg (lt_irrefl a)]
        exact ih bs
      · right; rw [if_pos h]

theorem charListLe_trans :
    ∀ x y z : List Char, charListLe x y = true → charListLe y z = true →
      charListLe x z = true := by
  intro x
  induction x with
  | nil => intro y z _ _; rfl
  | cons a as ih =>
    intro y z hxy hyz
    cases y with
    | nil => exact absurd hxy (by simp [charListLe])
    | cons b bs =>
      cases z with
      | nil => exact absurd hyz (by simp [charListLe])
      | cons c cs =>
        show (if a < c then true else if c < a then false else charListLe as cs) = true
        have hxy' : (if a < b then true else if b < a then false else charListLe as bs) = true :=
          hxy
        have hyz' : (if b < c then true else if c < b then false else charListLe bs cs) = true :=
          hyz
        rcases lt_trichotomy a b with hab | hab | hab
        · rcases lt_trichotomy b c with hbc | hbc | hbc
          · rw [if_pos (lt_trans hab hbc)]
          · subst hbc; rw [if_pos hab]
          · rw [if_pos hbc, if_neg (lt_asymm hbc)] at hyz'
            exact absurd hyz' (by simp)
        · subst hab
          rcases lt_trichotomy a c with hac | hac | hac
          · rw [if_pos hac]
          · subst hac
            rw [if_neg (lt_irrefl a), if_neg (lt_irrefl a)]
            rw [if_neg (lt_irrefl a), if_neg (lt_irrefl a)] at hxy' hyz'
            exact ih bs cs hxy' hyz'
          · rw [if_neg (lt_asymm hac), if_pos hac] at hyz'
            exact absurd hyz' (by simp)
        · rw [if_neg (lt_asymm hab), if_pos hab] at hxy'
          exact absurd hxy' (by simp)

theorem charListLe_antisymm :
    ∀ x y : List Char, charListLe x y = true → charListLe y x = true → x = y := by
  intro x
  induction x with
  | nil =>
    intro y _ hyx
    cases y with
    | nil => rfl
    | cons b bs => exact absurd hyx (by simp [charListLe])
  | cons a as ih =>
    intro y hxy hyx
    cases y with
    | nil => exact absurd hxy (by simp [charListLe])
    | cons b bs =>
      have hxy' : (if a < b then true else if b < a then false else charListLe as bs) = true :=
        hxy
      have hyx' : (if b < a then true else if a < b then false else charListLe bs as) = true :=
        hyx
      rcases lt_trichotomy a b with hab | hab | hab
      · rw [if_pos hab, if_neg (lt_asymm hab)] at hyx'
        exact absurd hyx' (by simp)
      · subst hab
        rw [if_neg (lt_irrefl a), if_neg (lt_irrefl a)] at hxy' hyx'
        rw [ih bs hxy' hyx']
      · rw [if_neg (lt_asymm hab), if_pos hab] at hxy'
        exact absurd hxy' (by simp)

theorem strLe_isTotal : IsTotal String strLe :=
  ⟨fun a b => charListLe_total a.data b.data⟩

theorem strLe_isTrans : IsTrans String strLe :=
  ⟨fun a b c hab hbc => charListLe_trans a.data b.data c.data hab hbc⟩

theorem strLe_isAntisymm : IsAntisymm String strLe :=
  ⟨fun a b hab hba => by
    have h := charListLe_antisymm a.data b.data hab hba
    cases a; cases b; cases h; rfl⟩

theorem strLe_empty_left (s : String) : strLe "" s := rfl

theorem strLe_empty_right {s : String} (h : strLe s "") : s = "" := by
  cases hs : s.data with
  | nil => cases s; cases hs; rfl
  | cons c cs =>
    rw [strLe, hs] at h
    exact absurd h (by simp [charListLe])

theorem sortStrings_sorted (l : List String) : List.Sorted strLe (sortStrings l) :=
  @List.sorted_insertionSort String strLe _ strLe_isTotal strLe_isTrans l

theorem sortStrings_perm (l : List String) : (sortStrings l).Perm l :=
  List.perm_insertionSort strLe l

theorem mem_sortStrings {x : String} {l : List String} : x ∈ sortStrings l ↔ x ∈ l :=
  (sortStrings_perm l).mem_iff

/-- No component produced by `splitOnChar c` contains `c`. -/
theorem splitOnChar_not_mem (c : Char) :
    ∀ l : List Char, ∀ x ∈ splitOnChar c l, ¬ c ∈ x := by
  intro l
  induction l with
  | nil =>
    intro x hx
    have : x = [] := by simpa [splitOnChar] using hx
    subst this
    simp
  | cons a rest ih =>
    intro x hx
    by_cases hac : a = c
    · rw [splitOnChar, if_pos hac] at hx
      rcases List.mem_cons.mp hx with h1 | h2
      · subst h1; simp
      · exact ih x h2
    · rw [splitOnChar, if_neg hac] at hx
      cases hsp : splitOnChar c rest with
      | nil =>
        rw [hsp] at hx
        have : x = [a] := by simpa using hx
        subst this
        intro hc
        have : c = a := by simpa using hc
        exact hac this.symm
      | cons h t =>
        rw [hsp] at hx
        rcases List.mem_cons.mp hx with h1 | h2
        · subst h1
          intro hc
          rcases List.mem_cons.mp hc with h3 | h4
          · exact hac h3.symm
          · exact ih h (by rw [hsp]; exact List.mem_cons_self h t) h4
        · exact ih x (by rw [hsp]; exact List.mem_cons_of_mem h h2)

theorem semiFree_of_mem_splitSemis {s x : String} (hx : x ∈ splitSemis s) : semiFree x := by
  rw [splitSemis, List.mem_map] at hx
  obtain ⟨cs, hcs, hx⟩ := hx
  subst hx
  exact splitOnChar_not_mem ';' s.data cs hcs

theorem semiFree_of_mem_industriesOf {r : Rec} {x : String}
    (hx : x ∈ industriesOf r) : semiFree x := by
  rw [industriesOf] at hx
  cases hr : r.industry with
  | none => rw [hr] at hx; exact absurd hx (List.not_mem_nil x)
  | some s => rw [hr] at hx; exact semiFree_of_mem_splitSemis hx

theorem semiFree_of_mem_industryComponents {g : List Rec} {x : String}
    (hx : x ∈ industryComponents g) : semiFree x := by
  obtain ⟨r, _, hxr⟩ := mem_industryComponents hx
  exact semiFree_of_mem_industriesOf hxr

theorem head?_mem_self {α} {l : List α} {c : α} (h : l.head? = some c) : c ∈ l := by
  cases l with
  | nil => exact absurd h (by simp)
  | cons a t =>
    have : a = c := by simpa using h
    subst this
    exact List.mem_cons_self a t

theorem getLast?_mem_self {α} {l : List α} {c : α} (h : l.getLast? = some c) : c ∈ l := by
  rw [← List.head?_reverse] at h
  exact List.mem_reverse.mp (head?_mem_self h)

theorem dropWhile_eq_self_of_head {α} (pred : α → Bool) (l : List α)
    (h : ∀ c, l.head? = some c → pred c = false) : l.dropWhile pred = l := by
  cases l with
  | nil => rfl
  | cons a t =>
    rw [List.dropWhile_cons, h a rfl]
    simp

theorem pyStrip_eq_self (pred : Char → Bool) (l : List Char)
    (h1 : ∀ c, l.head? = some c → pred c = false)
    (h2 : ∀ c, l.getLast? = some c → pred c = false) : pyStrip pred l = l := by
  rw [pyStrip, dropWhile_eq_self_of_head pred l h1,
    dropWhile_eq_self_of_head pred l.reverse
      (fun c hc => h2 c (by rwa [List.head?_reverse] at hc)),
    List.reverse_reverse]

theorem string_eta (s : String) : (⟨s.data⟩ : String) = s := rfl

theorem data_ne_nil_of_ne_empty {s : String} (h : s ≠ "") : s.data ≠ [] := by
  intro hd
  exact h (by cases s; cases hd; rfl)

theorem joinSemis_cons_cons (s b : String) (t : List String) :
    (joinSemis (s :: b :: t)).data = s.data ++ ';' :: (joinSemis (b :: t)).data := by
  show (s ++ ";" ++ joinSemis (b :: t)).data = _
  rw [String.data_append, String.data_append, List.append_assoc]
  rfl

theorem joinSemis_ne_nil {s : String} (t : List String) (hs : s ≠ "") :
    (joinSemis (s :: t)).data ≠ [] := by
  cases t with
  | nil => exact data_ne_nil_of_ne_empty hs
  | cons b t2 =>
    rw [joinSemis_cons_cons]
    simp

theorem joinSemis_head_mem {s : String} (t : List String) (hs : s ≠ "") :
    ∀ c, (joinSemis (s :: t)).data.head? = some c → c ∈ s.data := by
  intro c hc
  cases t with
  | nil => exact head?_mem_self hc
  | cons b t2 =>
    rw [joinSemis_cons_cons] at hc
    cases hd : s.data with
    | nil => exact absurd hd (data_ne_nil_of_ne_empty hs)
    | cons d ds =>
      rw [hd] at hc
      have : d = c := by simpa using hc
      rw [← this]
      exact List.mem_cons_self d ds

theorem joinSemis_last_mem :
    ∀ (M : List String), M ≠ [] → (∀ x ∈ M, x ≠ "") →
      ∀ c, (joinSemis M).data.getLast? = some c → ∃ x ∈ M, c ∈ x.data := by
  intro M
  induction M with
  | nil => intro h; exact absurd rfl h
  | cons s t ih =>
    intro _ hne c hc
    cases t with
    | nil => exact ⟨s, List.mem_cons_self s [], getLast?_mem_self hc⟩
    | cons b t2 =>
      rw [joinSemis_cons_cons] at hc
      have hbne : (joinSemis (b :: t2)).data ≠ [] :=
        joinSemis_ne_nil t2 (hne b (List.mem_cons_of_mem s (List.mem_cons_self b t2)))
      rw [List.getLast?_append_of_ne_nil s.data (List.cons_ne_nil ';' _)] at hc
      cases hJ : (joinSemis (b :: t2)).data with
      | nil => exact absurd hJ hbne
      | cons j0 js =>
        rw [hJ, List.getLast?_cons_cons] at hc
        rw [← hJ] at hc
        obtain ⟨x, hxmem, hxc⟩ :=
          ih (by simp) (fun x hx => hne x (List.mem_cons_of_mem s hx)) c hc
        exact ⟨x, List.mem_cons_of_mem s hxmem, hxc⟩

theorem strip_join_clean (M : List String) (hne : ∀ x ∈ M, x ≠ "")
    (hsf : ∀ x ∈ M, semiFree x) : stripSemis (joinSemis M) = joinSemis M := by
  cases M with
  | nil => rfl
  | cons s t =>
    have hhead : ∀ c, (joinSemis (s :: t)).data.head? = some c →
        (decide (c = ';') : Bool) = false := by
      intro c hc
      have hcm := joinSemis_head_mem t (hne s (List.mem_cons_self s t)) c hc
      exact decide_eq_false fun h => hsf s (List.mem_cons_self s t) (h ▸ hcm)
    have hlast : ∀ c, (joinSemis (s :: t)).data.getLast? = some c →
        (decide (c = ';') : Bool) = false := by
      intro c hc
      obtain ⟨x, hxm, hxc⟩ := joinSemis_last_mem (s :: t) (by simp) hne c hc
      exact decide_eq_false fun h => hsf x hxm (h ▸ hxc)
    calc stripSemis (joinSemis (s :: t))
        = ⟨pyStrip (fun c => decide (c = ';')) (joinSemis (s :: t)).data⟩ := rfl
      _ = ⟨(joinSemis (s :: t)).data⟩ := by
          rw [pyStrip_eq_self (fun c => decide (c = ';')) _ hhead hlast]
      _ = joinSemis (s :: t) := string_eta _

theorem strip_join_sorted (L : List String) (hnd : L.Nodup)
    (hsort : List.Sorted strLe L) (hsf : ∀ x ∈ L, semiFree x) :
    stripSemis (joinSemis L) = joinSemis (L.filter fun x => decide (x ≠ "")) := by
  by_cases he : "" ∈ L
  · cases L with
    | nil => exact absurd he (List.not_mem_nil _)
    | cons h t =>
      have hh : h = "" := by
        rcases List.mem_cons.mp he with h1 | h2
        · exact h1.symm
        · exact strLe_empty_right ((List.sorted_cons.mp hsort).1 "" h2)
      subst hh
      have hte : ∀ x ∈ t, x ≠ "" := by
        intro x hx hxe
        exact (List.nodup_cons.mp hnd).1 (hxe ▸ hx)
      have h0 : (decide (("" : String) ≠ "") : Bool) = false := by decide
      have hflt : List.filter (fun x => decide (x ≠ "")) ("" :: t) = t := by
        rw [List.filter_cons, h0]
        simp only [Bool.false_eq_true, if_false]
        exact List.filter_eq_self.mpr fun a ha => decide_eq_true (hte a ha)
      rw [hflt]
      cases t with
      | nil => rfl
      | cons b t2 =>
        have hbsf : ∀ x ∈ b :: t2, semiFree x :=
          fun x hx => hsf x (List.mem_cons_of_mem _ hx)
        have hhead : ∀ c, (joinSemis (b :: t2)).data.head? = some c →
            (decide (c = ';') : Bool) = false := by
          intro c hc
          have hcm := joinSemis_head_mem t2 (hte b (List.mem_cons_self b t2)) c hc
          exact decide_eq_false fun h => hbsf b (List.mem_cons_self b t2) (h ▸ hcm)
        have hlast : ∀ c, (joinSemis (b :: t2)).data.getLast? = some c →
            (decide (c = ';') : Bool) = false := by
          intro c hc
          obtain ⟨x, hxm, hxc⟩ := joinSemis_last_mem (b :: t2) (by simp) hte c hc
          exact decide_eq_false fun h => hbsf x hxm (h ▸ hxc)
        have hdata : (joinSemis ("" :: b :: t2)).data = ';' :: (joinSemis (b :: t2)).data := by
          rw [joinSemis_cons_cons]
          rfl
        have hsemi : (decide ((';' : Char) = ';') : Bool) = true := by decide
        have h1 : List.dropWhile (fun c => decide (c = ';'))
            (';' :: (joinSemis (b :: t2)).data) = (joinSemis (b :: t2)).data := by
          rw [List.dropWhile_cons, hsemi]
          simp only [if_true]
          exact dropWhile_eq_self_of_head _ _ hhead
        calc stripSemis (joinSemis ("" :: b :: t2))
            = ⟨pyStrip (fun c => decide (c = ';')) (joinSemis ("" :: b :: t2)).data⟩ := rfl
          _ = ⟨pyStrip (fun c => decide (c = ';')) (';' :: (joinSemis (b :: t2)).data)⟩ := by
              rw [hdata]
          _ = ⟨(joinSemis (b :: t2)).data⟩ := by
              rw [pyStrip, h1,
                dropWhile_eq_self_of_head _ _
                  (fun c hc => hlast c (by rwa [List.head?_reverse] at hc)),
                List.reverse_reverse]
          _ = joinSemis (b :: t2) := string_eta _
  · have hne : ∀ x ∈ L, x ≠ "" := fun x hx hxe => he (hxe ▸ hx)
    rw [List.filter_eq_self.mpr fun a ha => decide_eq_true (hne a ha)]
    exact strip_join_clean L hne hsf

theorem formatIndustries_eq_spec (comps : List String) (hsf : ∀ x ∈ comps, semiFree x) :
    formatIndustries comps =
      ";" ++ joinSemis ((sortStrings comps.dedup).filter fun x => decide (x ≠ "")) := by
  rw [formatIndustries]
  congr 1
  apply strip_join_sorted
  · exact (sortStrings_perm _).nodup_iff.mpr (List.nodup_dedup comps)
  · exact sortStrings_sorted _
  · intro x hx
    exact hsf x (List.mem_dedup.mp (mem_sortStrings.mp hx))

/-- C4 (confirmed).  Claim: for every duplicate group the survivor's
industries value equals the union of all members' industry sets,
alphabetically sorted, joined with ";" and prefixed with a leading ";";
in particular the full-name merge of Jane Doe records A (2021-01-01,
"Tech") and B (2021-06-01, "Finance") yields one survivor dated 2021-06-01
with industries ";Finance;Tech".  (The code's `strip(";")` after the join
removes exactly the empty component a left-over leading separator would
contribute, so the result is precisely the `;`-prefixed join of the sorted
non-empty union.) -/
theorem c4_industry_union (p : Rec) (rest : List Rec) :
    (mergeGroup p rest).industry = some (specIndustries (p :: rest)) ∧
    mergeByKey nameKeyF [jA, jB] =
      [⟨some "B", some "Jane", some "Doe", some "b@x.com", none, some ";Finance;Tech",
        some 20210601, none, none, none, none⟩] := by
  constructor
  · rw [mergeGroup_industry]
    exact congrArg some
      (formatIndustries_eq_spec _ fun x hx => semiFree_of_mem_industryComponents hx)
  · decide

theorem mem_keysOf {key : Rec → Option String} {s : List Rec} {k : String} :
    k ∈ keysOf key s ↔ ∃ r ∈ s, key r = some k := by
  rw [keysOf, mem_sortStrings, List.mem_dedup, List.mem_filterMap]

theorem groupFor_ne_nil {s : List Rec} {key : Rec → Option String} {k : String}
    (h : ∃ r ∈ s, key r = some k) : groupFor s key k ≠ [] := by
  obtain ⟨r, hr, hk⟩ := h
  exact List.ne_nil_of_mem (List.mem_filter.mpr ⟨hr, decide_eq_true hk⟩)

theorem groupMerge_isSome {s : List Rec} {key : Rec → Option String} {k : String}
    (h : ∃ r ∈ s, key r = some k) : (groupMerge s key k).isSome = true := by
  rw [groupMerge]
  cases hg : groupFor s key k with
  | nil => exact absurd hg (groupFor_ne_nil h)
  | cons p rest => rfl

theorem filterMap_length_of_all_some {α β : Type} (f : α → Option β) :
    ∀ ks : List α, (∀ k ∈ ks, (f k).isSome = true) →
      (ks.filterMap f).length = ks.length := by
  intro ks
  induction ks with
  | nil => intro _; rfl
  | cons k t ih =>
    intro h
    cases hf : f k with
    | none =>
      have := h k (List.mem_cons_self k t)
      rw [hf] at this
      exact absurd this (by simp)
    | some b =>
      rw [List.filterMap_cons_some hf]
      rw [List.length_cons, List.length_cons,
        ih fun x hx => h x (List.mem_cons_of_mem k hx)]

theorem mergeByKey_length (key : Rec → Option String) (l : List Rec) :
    (mergeByKey key l).length =
      ((sortByDateDesc l).filterMap key).dedup.length := by
  rw [mergeByKey]
  rw [filterMap_length_of_all_some _ _
    (fun k hk => groupMerge_isSome (mem_keysOf.mp hk))]
  exact (sortStrings_perm _).length_eq

/-- C5 (corrected), amended claim.  The full-name grouping key is the plain
concatenation of `firstname` and `lastname` with no case folding; it is the
empty string whenever either name is absent (pandas `+` propagates NaN and
the code then applies `fillna("")`); and all records sharing a key —
including the empty key — form exactly one duplicate group, so the
full-name pass emits one survivor per distinct key of the sorted frame. -/
theorem c5_key_amended :
    (∀ (id em ad ind : Option String) (d : Option Nat) (ph co ci cc : Option String)
        (fn ln : String),
      fullNameKey ⟨id, some fn, some ln, em, ad, ind, d, ph, co, ci, cc⟩ = fn ++ ln) ∧
    (∀ (id em ad ind : Option String) (d : Option Nat) (ph co ci cc : Option String)
        (ln : Option String),
      fullNameKey ⟨id, none, ln, em, ad, ind, d, ph, co, ci, cc⟩ = "") ∧
    (∀ (id em ad ind : Option String) (d : Option Nat) (ph co ci cc : Option String)
        (fn : Option String),
      fullNameKey ⟨id, fn, none, em, ad, ind, d, ph, co, ci, cc⟩ = "") ∧
    (∀ l : List Rec, (mergeByKey nameKeyF l).length =
      ((sortByDateDesc l).filterMap nameKeyF).dedup.length) := by
  refine ⟨?_, ?_, ?_, mergeByKey_length nameKeyF⟩
  · intro id em ad ind d ph co ci cc fn ln
    rfl
  · intro id em ad ind d ph co ci cc ln
    cases ln <;> rfl
  · intro id em ad ind d ph co ci cc fn
    cases fn <;> rfl

/-- C8 (corrected), amended claim.  `cityToCountry` derives the country as
the whitespace-stripped last comma segment of the geocoded formatted
address, with no compound-region handling; the `/`-second-component rule is
applied only by `countryCodeFromCity`, before the `pycountry` lookup.
Absent or empty input yields the "City not provided" sentinel and a lookup
miss yields the "Country not found" sentinel, never a raised error. -/
theorem c8_country_parsing_amended (geocode : String → Option String)
    (tbl : String → Option String) (c addr : String)
    (hc : c ≠ "") (hq : stripQuotes c = c) (hg : geocode c = some addr) :
    get_country_from_city geocode (some c) = stripWs (lastCommaSeg addr) ∧
    get_country_code_from_city geocode tbl c =
      (match tbl (applySlashRule (stripWs (lastCommaSeg addr))) with
        | some cc => cc
        | none => "Country code not found in pycountry") ∧
    get_country_from_city geocode none = "City not provided" ∧
    (∀ c2 : String, c2 ≠ "" → geocode (stripQuotes c2) = none →
      get_country_from_city geocode (some c2) = "Country not found") := by
  refine ⟨?_, ?_, rfl, ?_⟩
  · rw [get_country_from_city, if_neg hc, hq, hg]
  · rw [get_country_code_from_city, hg]
  · intro c2 hc2 hg2
    rw [get_country_from_city, if_neg hc2, hg2]

/-- Witness for C8: the compound-region geocoder stub, on a quote-free
non-empty city. -/
theorem c8_country_parsing_amended_witness :
    ("Kadikoy" : String) ≠ "" ∧ stripQuotes "Kadikoy" = "Kadikoy" ∧
    geoCompound "Kadikoy" = some "Kadikoy, Istanbul / Turkiye" ∧
    (get_country_from_city geoCompound (some "Kadikoy") =
        stripWs (lastCommaSeg "Kadikoy, Istanbul / Turkiye") ∧
      get_country_code_from_city geoCompound tblCompound "Kadikoy" =
        (match tblCompound (applySlashRule (stripWs (lastCommaSeg "Kadikoy, Istanbul / Turkiye"))) with
          | some cc => cc
          | none => "Country code not found in pycountry") ∧
      get_country_from_city geoCompound none = "City not provided" ∧
      (∀ c2 : String, c2 ≠ "" → geoCompound (stripQuotes c2) = none →
        get_country_from_city geoCompound (some c2) = "Country not found")) :=
  ⟨by decide, by decide, rfl,
    c8_country_parsing_amended geoCompound tblCompound "Kadikoy"
      "Kadikoy, Istanbul / Turkiye" (by decide) (by decide) rfl⟩

theorem foldl_fillStr_field_some (g : Rec → Option String) (v : String) :
    ∀ rest : List Rec, rest.foldl (fun a r => fillStr a (g r)) (some v) = some v := by
  intro rest
  induction rest with
  | nil => rfl
  | cons r t ih => exact ih

theorem mergeGroup_firstname_some {p : Rec} {v : String} (rest : List Rec)
    (h : p.firstname = some v) : (mergeGroup p rest).firstname = some v := by
  show (rest.foldl backfillRow p).firstname = some v
  rw [foldl_backfill_firstname, h, foldl_fillStr_field_some]

theorem mergeGroup_lastname_some {p : Rec} {v : String} (rest : List Rec)
    (h : p.lastname = some v) : (mergeGroup p rest).lastname = some v := by
  show (rest.foldl backfillRow p).lastname = some v
  rw [foldl_backfill_lastname, h, foldl_fillStr_field_some]

theorem mergeGroup_email_some {p : Rec} {v : String} (rest : List Rec)
    (h : p.raw_email = some v) : (mergeGroup p rest).raw_email = some v := by
  show (rest.foldl backfillRow p).raw_email = some v
  rw [foldl_backfill_email, h, foldl_fillStr_field_some]

theorem fullNameKey_eq_of_some {r : Rec} {f l : String}
    (h1 : r.firstname = some f) (h2 : r.lastname = some l) :
    fullNameKey r = f ++ l := by
  rw [fullNameKey, h1, h2]

theorem fullNameKey_mergeGroup {p : Rec} (rest : List Rec)
    (h1 : p.firstname ≠ none) (h2 : p.lastname ≠ none) :
    fullNameKey (mergeGroup p rest) = fullNameKey p := by
  obtain ⟨f, hf⟩ := Option.ne_none_iff_exists.mp h1
  obtain ⟨l, hl⟩ := Option.ne_none_iff_exists.mp h2
  rw [fullNameKey_eq_of_some (mergeGroup_firstname_some rest hf.symm)
    (mergeGroup_lastname_some rest hl.symm)]
  rw [fullNameKey_eq_of_some hf.symm hl.symm]

theorem groupFor_head {s : List Rec} {key : Rec → Option String} {k : String}
    {p : Rec} {rest : List Rec} (h : groupFor s key k = p :: rest) :
    p ∈ s ∧ key p = some k := by
  have hp : p ∈ groupFor s key k := by rw [h]; exact List.mem_cons_self p rest
  have := List.mem_filter.mp hp
  exact ⟨this.1, of_decide_eq_true this.2⟩

theorem mergeByKey_member {r : Rec} {key : Rec → Option String} {l : List Rec}
    (h : r ∈ mergeByKey key l) :
    ∃ p rest k, r = mergeGroup p rest ∧ p ∈ sortByDateDesc l ∧ key p = some k ∧
      groupFor (sortByDateDesc l) key k = p :: rest := by
  rw [mergeByKey] at h
  obtain ⟨k, _, hk⟩ := List.mem_filterMap.mp h
  rw [groupMerge] at hk
  cases hg : groupFor (sortByDateDesc l) key k with
  | nil => rw [hg] at hk; exact absurd hk (by simp)
  | cons p rest =>
    rw [hg] at hk
    have hr : mergeGroup p rest = r := by simpa using hk
    obtain ⟨hps, hpk⟩ := groupFor_head hg
    exact ⟨p, rest, k, hr.symm, hps, hpk, hg⟩

theorem canonicalInd_mergeGroup (p : Rec) (rest : List Rec) :
    CanonicalInd (mergeGroup p rest) :=
  ⟨industryComponents (p :: rest),
    fun _ hx => semiFree_of_mem_industryComponents hx, mergeGroup_industry p rest⟩

theorem canonicalInd_of_mem_mergeByKey {r : Rec} {key : Rec → Option String}
    {l : List Rec} (h : r ∈ mergeByKey key l) : CanonicalInd r := by
  obtain ⟨p, rest, k, hr, _, _, _⟩ := mergeByKey_member h
  rw [hr]
  exact canonicalInd_mergeGroup p rest

theorem namesPresent_mergeByKey {key : Rec → Option String} {l : List Rec}
    (hnp : ∀ r ∈ l, r.firstname ≠ none ∧ r.lastname ≠ none) :
    ∀ r ∈ mergeByKey key l, r.firstname ≠ none ∧ r.lastname ≠ none := by
  intro r h
  obtain ⟨p, rest, k, hr, hps, _, _⟩ := mergeByKey_member h
  have hpl : p ∈ l := (List.perm_insertionSort dateDescRel l).mem_iff.mp hps
  obtain ⟨hf, hl⟩ := hnp p hpl
  obtain ⟨f, hf'⟩ := Option.ne_none_iff_exists.mp hf
  obtain ⟨ln, hl'⟩ := Option.ne_none_iff_exists.mp hl
  rw [hr]
  constructor
  · rw [mergeGroup_firstname_some rest hf'.symm]; exact Option.some_ne_none f
  · rw [mergeGroup_lastname_some rest hl'.symm]; exact Option.some_ne_none ln

theorem string_data_ext {a b : String} (h : a.data = b.data) : a = b := by
  cases a; cases b; cases h; rfl

theorem splitOnChar_ne_nil (c : Char) : ∀ l : List Char, splitOnChar c l ≠ [] := by
  intro l
  induction l with
  | nil => simp [splitOnChar]
  | cons a rest ih =>
    rw [splitOnChar]
    by_cases hac : a = c
    · rw [if_pos hac]; simp
    · rw [if_neg hac]
      cases hsp : splitOnChar c rest with
      | nil => simp
      | cons h t => simp

theorem splitOnChar_of_not_mem (c : Char) :
    ∀ l : List Char, ¬ c ∈ l → splitOnChar c l = [l] := by
  intro l
  induction l with
  | nil => intro _; rfl
  | cons a rest ih =>
    intro hc
    have hac : ¬ a = c := fun h => hc (by rw [← h]; exact List.mem_cons_self a rest)
    rw [splitOnChar, if_neg hac, ih fun h => hc (List.mem_cons_of_mem a h)]

theorem splitOnChar_append (c : Char) :
    ∀ xs ys : List Char, ¬ c ∈ xs → ∀ h t, splitOnChar c ys = h :: t →
      splitOnChar c (xs ++ ys) = (xs ++ h) :: t := by
  intro xs
  induction xs with
  | nil =>
    intro ys _ h t hys
    simpa using hys
  | cons a xr ih =>
    intro ys hc h t hys
    have hac : ¬ a = c := fun he => hc (by rw [← he]; exact List.mem_cons_self a xr)
    show splitOnChar c (a :: (xr ++ ys)) = _
    rw [splitOnChar, if_neg hac, ih ys (fun hm => hc (List.mem_cons_of_mem a hm)) h t hys]
    rfl

theorem splitSemis_joinSemis : ∀ M : List String, M ≠ [] → (∀ x ∈ M, semiFree x) →
    splitSemis (joinSemis M) = M := by
  intro M
  induction M with
  | nil => intro h; exact absurd rfl h
  | cons s t ih =>
    intro _ hsf
    cases t with
    | nil =>
      show splitSemis s = [s]
      rw [splitSemis, splitOnChar_of_not_mem ';' s.data (hsf s (List.mem_cons_self s []))]
      show [(⟨s.data⟩ : String)] = [s]
      rw [string_eta]
    | cons b t2 =>
      cases hsp : splitOnChar ';' (joinSemis (b :: t2)).data with
      | nil => exact absurd hsp (splitOnChar_ne_nil ';' _)
      | cons h0 t0 =>
        have hs1 : splitOnChar ';' (';' :: (joinSemis (b :: t2)).data) = [] :: h0 :: t0 := by
          rw [splitOnChar, if_pos rfl, hsp]
        have hs2 := splitOnChar_append ';' s.data (';' :: (joinSemis (b :: t2)).data)
          (hsf s (List.mem_cons_self s (b :: t2))) [] (h0 :: t0) hs1
        show splitSemis (joinSemis (s :: b :: t2)) = s :: b :: t2
        rw [splitSemis, joinSemis_cons_cons, hs2, List.append_nil, List.map_cons]
        rw [show ((⟨s.data⟩ : String)) = s from string_eta s]
        congr 1
        have hmapped := ih (by simp) fun x hx => hsf x (List.mem_cons_of_mem s hx)
        rw [splitSemis, hsp] at hmapped
        exact hmapped

theorem sortStrings_of_sorted {l : List String} (h : List.Sorted strLe l) :
    sortStrings l = l :=
  @List.eq_of_perm_of_sorted String strLe strLe_isAntisymm _ _
    (sortStrings_perm l) (sortStrings_sorted l) h

theorem reformat_fixpoint (comps : List String) (hsf : ∀ x ∈ comps, semiFree x) :
    formatIndustries (splitSemis (formatIndustries comps)) = formatIndustries comps := by
  have hspec := formatIndustries_eq_spec comps hsf
  rw [hspec]
  set M := (sortStrings comps.dedup).filter (fun x => decide (x ≠ "")) with hMdef
  have hMnodup : M.Nodup :=
    List.Nodup.filter _ ((sortStrings_perm _).nodup_iff.mpr (List.nodup_dedup comps))
  have hMsorted : List.Sorted strLe M := List.Sorted.filter _ (sortStrings_sorted _)
  have hMne : ∀ x ∈ M, x ≠ "" := by
    intro x hx
    rw [hMdef] at hx
    have hp := List.of_mem_filter hx
    exact of_decide_eq_true hp
  have hMsf : ∀ x ∈ M, semiFree x := by
    intro x hx
    rw [hMdef] at hx
    exact hsf x (List.mem_dedup.mp (mem_sortStrings.mp (List.mem_of_mem_filter hx)))
  by_cases hM0 : M = []
  · have hone : (";" ++ joinSemis ([] : List String)) = ";" := by
      apply string_data_ext
      rw [String.data_append]
      rfl
    rw [hM0, hone]
    rw [show splitSemis ";" = ["", ""] from by decide]
    exact formatIndustries_all_empty (by decide)
  · have hdata : (";" ++ joinSemis M).data = ';' :: (joinSemis M).data := by
      rw [String.data_append]; rfl
    have hJS : splitSemis (joinSemis M) = M := splitSemis_joinSemis M hM0 hMsf
    have hsplit : splitSemis (";" ++ joinSemis M) = "" :: M := by
      have e1 : splitSemis (";" ++ joinSemis M) =
          (splitOnChar ';' (";" ++ joinSemis M).data).map (fun cs => (⟨cs⟩ : String)) := rfl
      rw [e1, hdata, splitOnChar, if_pos rfl, List.map_cons]
      have e2 : splitSemis (joinSemis M) =
          (splitOnChar ';' (joinSemis M).data).map (fun cs => (⟨cs⟩ : String)) := rfl
      rw [e2] at hJS
      rw [hJS]
    rw [hsplit]
    have hnodup2 : ("" :: M).Nodup := by
      rw [List.nodup_cons]
      exact ⟨fun he => hMne "" he rfl, hMnodup⟩
    have hsorted2 : List.Sorted strLe ("" :: M) := by
      rw [List.sorted_cons]
      exact ⟨fun b _ => strLe_empty_left b, hMsorted⟩
    have hsf2 : ∀ x ∈ "" :: M, semiFree x := by
      intro x hx
      rcases List.mem_cons.mp hx with h1 | h2
      · subst h1
        intro hc
        exact absurd hc (List.not_mem_nil ';')
      · exact hMsf x h2
    rw [formatIndustries, List.dedup_eq_self.mpr hnodup2, sortStrings_of_sorted hsorted2,
      strip_join_sorted ("" :: M) hnodup2 hsorted2 hsf2]
    congr 2
    rw [List.filter_cons]
    have h0 : (decide (("" : String) ≠ "") : Bool) = false := by decide
    rw [h0]
    simp only [Bool.false_eq_true, if_false]
    exact List.filter_eq_self.mpr fun a ha => decide_eq_true (hMne a ha)

theorem mergeGroup_nil (r : Rec) :
    mergeGroup r [] = { r with industry := some (formatIndustries (industriesOf r)) } := rfl

theorem mergeGroup_nil_of_canonical {r : Rec} (h : CanonicalInd r) : mergeGroup r [] = r := by
  obtain ⟨comps, hsf, hind⟩ := h
  have h1 : industriesOf r = splitSemis (formatIndustries comps) := by
    rw [industriesOf, hind]
  have h2 : formatIndustries (industriesOf r) = formatIndustries comps := by
    rw [h1, reformat_fixpoint comps hsf]
  rw [mergeGroup_nil, h2, ← hind]

theorem keysOf_nodup (key : Rec → Option String) (s : List Rec) : (keysOf key s).Nodup :=
  (sortStrings_perm _).nodup_iff.mpr (List.nodup_dedup _)

theorem keysOf_sorted (key : Rec → Option String) (s : List Rec) :
    List.Sorted strLe (keysOf key s) :=
  sortStrings_sorted _

theorem nodup_of_nodup_keys {key : Rec → Option String} :
    ∀ s : List Rec, (s.filterMap key).Nodup → (∀ r ∈ s, (key r).isSome = true) →
      s.Nodup := by
  intro s
  induction s with
  | nil => intro _ _; exact List.nodup_nil
  | cons a t ih =>
    intro hn ha
    obtain ⟨ka, hka⟩ := Option.isSome_iff_exists.mp (ha a (List.mem_cons_self a t))
    rw [List.filterMap_cons_some hka] at hn
    rw [List.nodup_cons] at hn ⊢
    refine ⟨fun hat => hn.1 (List.mem_filterMap.mpr ⟨a, hat, hka⟩), ?_⟩
    exact ih hn.2 fun r hr => ha r (List.mem_cons_of_mem a hr)

theorem filter_erase_of_not (p : Rec → Bool) :
    ∀ (s : List Rec) (r : Rec), r ∈ s → p r = false →
      s.filter p = (s.erase r).filter p := by
  intro s
  induction s with
  | nil => intro r hr; exact absurd hr (List.not_mem_nil r)
  | cons a t ih =>
    intro r hr hp
    by_cases har : a = r
    · subst har
      rw [List.erase_cons_head, List.filter_cons, hp]
      simp only [Bool.false_eq_true, if_false]
    · rcases List.mem_cons.mp hr with h1 | h2
      · exact absurd h1.symm har
      · rw [List.erase_cons, if_neg (by simp [har]), List.filter_cons, List.filter_cons,
          ih r h2 hp]

theorem groupFor_singleton {key : Rec → Option String} :
    ∀ s : List Rec, (s.filterMap key).Nodup → (∀ r ∈ s, (key r).isSome = true) →
      ∀ r ∈ s, ∀ k, key r = some k → groupFor s key k = [r] := by
  intro s
  induction s with
  | nil => intro _ _ r hr; exact absurd hr (List.not_mem_nil r)
  | cons a t ih =>
    intro hn ha r hr k hk
    obtain ⟨ka, hka⟩ := Option.isSome_iff_exists.mp (ha a (List.mem_cons_self a t))
    rw [List.filterMap_cons_some hka] at hn
    have hn' := List.nodup_cons.mp hn
    rcases List.mem_cons.mp hr with h1 | h2
    · subst h1
      have hkka : ka = k := Option.some.inj (hka.symm.trans hk)
      rw [groupFor, List.filter_cons, decide_eq_true hk]
      simp only [if_true]
      have hft : t.filter (fun x => decide (key x = some k)) = [] := by
        rw [List.filter_eq_nil_iff]
        intro x hx hpx
        exact hn'.1 (hkka ▸ List.mem_filterMap.mpr ⟨x, hx, of_decide_eq_true hpx⟩)
      rw [hft]
    · have hne : ¬ key a = some k := by
        intro he
        have : ka = k := Option.some.inj (hka.symm.trans he)
        exact hn'.1 (this ▸ List.mem_filterMap.mpr ⟨r, h2, hk⟩)
      rw [groupFor, List.filter_cons, decide_eq_false hne]
      simp only [Bool.false_eq_true, if_false]
      exact ih hn'.2 (fun x hx => ha x (List.mem_cons_of_mem a hx)) r h2 k hk

theorem filterMap_congr_mem {α β : Type} {f g : α → Option β} :
    ∀ l : List α, (∀ x ∈ l, f x = g x) → l.filterMap f = l.filterMap g := by
  intro l
  induction l with
  | nil => intro _; rfl
  | cons a t ih =>
    intro h
    rw [List.filterMap_cons, List.filterMap_cons, h a (List.mem_cons_self a t),
      ih fun x hx => h x (List.mem_cons_of_mem a hx)]

theorem filterMap_groupMerge_perm {key : Rec → Option String} :
    ∀ (ks : List String) (s : List Rec),
      (s.filterMap key).Nodup → (∀ r ∈ s, (key r).isSome = true) →
      (∀ r ∈ s, mergeGroup r [] = r) → ks.Nodup →
      (∀ k ∈ ks, ∃ r ∈ s, key r = some k) →
      (∀ r ∈ s, ∃ k ∈ ks, key r = some k) →
      (ks.filterMap (groupMerge s key)).Perm s := by
  intro ks
  induction ks with
  | nil =>
    intro s _ _ _ _ _ h3
    have hs : s = [] := by
      rw [List.eq_nil_iff_forall_not_mem]
      intro r hr
      obtain ⟨k, hk, _⟩ := h3 r hr
      exact absurd hk (List.not_mem_nil k)
    rw [hs]
    exact List.Perm.refl _
  | cons k t ih =>
    intro s hn ha hfix hknd h2 h3
    obtain ⟨r, hr, hk⟩ := h2 k (List.mem_cons_self k t)
    have hgf : groupFor s key k = [r] := groupFor_singleton s hn ha r hr k hk
    have hgm : groupMerge s key k = some r := by
      rw [groupMerge, hgf]
      show some (mergeGroup r []) = some r
      rw [hfix r hr]
    rw [List.filterMap_cons_some hgm]
    have hknd' := List.nodup_cons.mp hknd
    have hnodup_s : s.Nodup := nodup_of_nodup_keys s hn ha
    have hcongr : ∀ k2 ∈ t, groupMerge s key k2 = groupMerge (s.erase r) key k2 := by
      intro k2 hk2
      have hkk2 : k ≠ k2 := fun he => hknd'.1 (he ▸ hk2)
      have hpr : (decide (key r = some k2) : Bool) = false := by
        apply decide_eq_false
        intro he
        exact hkk2 (Option.some.inj (hk.symm.trans he))
      rw [groupMerge, groupMerge,
        show groupFor s key k2 = groupFor (s.erase r) key k2 from
          filter_erase_of_not _ s r hr hpr]
    have hfm : t.filterMap (groupMerge s key) = t.filterMap (groupMerge (s.erase r) key) :=
      filterMap_congr_mem t hcongr
    have hsperm : s.Perm (r :: s.erase r) := List.perm_cons_erase hr
    have hn2 : ((s.erase r).filterMap key).Nodup := by
      have hp : (s.filterMap key).Perm ((r :: s.erase r).filterMap key) :=
        hsperm.filterMap key
      rw [List.filterMap_cons_some hk] at hp
      exact (List.nodup_cons.mp (hp.nodup_iff.mp hn)).2
    have ha2 : ∀ x ∈ s.erase r, (key x).isSome = true :=
      fun x hx => ha x (List.mem_of_mem_erase hx)
    have hfix2 : ∀ x ∈ s.erase r, mergeGroup x [] = x :=
      fun x hx => hfix x (List.mem_of_mem_erase hx)
    have h22 : ∀ k2 ∈ t, ∃ x ∈ s.erase r, key x = some k2 := by
      intro k2 hk2
      obtain ⟨x, hx, hkx⟩ := h2 k2 (List.mem_cons_of_mem k hk2)
      have hxr : x ≠ r := by
        intro he
        subst he
        have : k = k2 := Option.some.inj (hk.symm.trans hkx)
        exact hknd'.1 (this ▸ hk2)
      exact ⟨x, (List.mem_erase_of_ne hxr).mpr hx, hkx⟩
    have h32 : ∀ x ∈ s.erase r, ∃ k2 ∈ t, key x = some k2 := by
      intro x hx
      have hxs : x ∈ s := List.mem_of_mem_erase hx
      obtain ⟨k2, hk2, hkx⟩ := h3 x hxs
      rcases List.mem_cons.mp hk2 with he | ht2
      · subst he
        have hsing := groupFor_singleton s hn ha x hxs k2 hkx
        have hrx : r = x := (List.cons_eq_cons.mp (hgf.symm.trans hsing)).1
        exact absurd hrx.symm ((List.Nodup.mem_erase_iff hnodup_s).mp hx).1
      · exact ⟨k2, ht2, hkx⟩
    have hperm := ih (s.erase r) hn2 ha2 hfix2 hknd'.2 h22 h32
    rw [hfm]
    exact (hperm.cons r).trans hsperm.symm

theorem mergeByKey_perm_of_singletons (key : Rec → Option String) (l : List Rec)
    (ha : ∀ r ∈ l, (key r).isSome = true)
    (hn : (l.filterMap key).Nodup)
    (hfix : ∀ r ∈ l, mergeGroup r [] = r) :
    (mergeByKey key l).Perm l := by
  have hsp : (sortByDateDesc l).Perm l := List.perm_insertionSort dateDescRel l
  have ha' : ∀ r ∈ sortByDateDesc l, (key r).isSome = true :=
    fun r hr => ha r (hsp.mem_iff.mp hr)
  have hn' : ((sortByDateDesc l).filterMap key).Nodup :=
    (hsp.filterMap key).nodup_iff.mpr hn
  have hfix' : ∀ r ∈ sortByDateDesc l, mergeGroup r [] = r :=
    fun r hr => hfix r (hsp.mem_iff.mp hr)
  have h2 : ∀ k ∈ keysOf key (sortByDateDesc l), ∃ r ∈ sortByDateDesc l, key r = some k :=
    fun k hk => mem_keysOf.mp hk
  have h3 : ∀ r ∈ sortByDateDesc l, ∃ k ∈ keysOf key (sortByDateDesc l), key r = some k := by
    intro r hr
    obtain ⟨k, hk⟩ := Option.isSome_iff_exists.mp (ha' r hr)
    exact ⟨k, mem_keysOf.mpr ⟨r, hr, hk⟩, hk⟩
  exact (filterMap_groupMerge_perm _ _ hn' ha' hfix'
    (keysOf_nodup key (sortByDateDesc l)) h2 h3).trans hsp

theorem filterMap_groupMerge_map_key {key : Rec → Option String} {s : List Rec}
    (hkp : ∀ p rest k, groupFor s key k = p :: rest → key (mergeGroup p rest) = some k) :
    ∀ ks : List String, (∀ k ∈ ks, ∃ r ∈ s, key r = some k) →
      (ks.filterMap (groupMerge s key)).map key = ks.map some := by
  intro ks
  induction ks with
  | nil => intro _; rfl
  | cons k t ih =>
    intro h2
    obtain ⟨r, hr, hk⟩ := h2 k (List.mem_cons_self k t)
    cases hgf : groupFor s key k with
    | nil => exact absurd hgf (groupFor_ne_nil ⟨r, hr, hk⟩)
    | cons p rest =>
      have hgm : groupMerge s key k = some (mergeGroup p rest) := by rw [groupMerge, hgf]
      rw [List.filterMap_cons_some hgm, List.map_cons, List.map_cons, hkp p rest k hgf,
        ih fun k2 hk2 => h2 k2 (List.mem_cons_of_mem k hk2)]

theorem mergeByKey_map_key {key : Rec → Option String} {l : List Rec}
    (hkp : ∀ p rest k, groupFor (sortByDateDesc l) key k = p :: rest →
      key (mergeGroup p rest) = some k) :
    (mergeByKey key l).map key = (keysOf key (sortByDateDesc l)).map some := by
  rw [mergeByKey]
  exact filterMap_groupMerge_map_key hkp _ fun k hk => mem_keysOf.mp hk

theorem emailKey_preserved {s : List Rec} :
    ∀ p rest k, groupFor s emailKeyF k = p :: rest →
      emailKeyF (mergeGroup p rest) = some k := by
  intro p rest k hgf
  exact mergeGroup_email_some rest (groupFor_head hgf).2

theorem nameKey_preserved {s : List Rec}
    (hnp : ∀ r ∈ s, r.firstname ≠ none ∧ r.lastname ≠ none) :
    ∀ p rest k, groupFor s nameKeyF k = p :: rest →
      nameKeyF (mergeGroup p rest) = some k := by
  intro p rest k hgf
  obtain ⟨hps, hpk⟩ := groupFor_head hgf
  obtain ⟨h1, h2⟩ := hnp p hps
  rw [nameKeyF, fullNameKey_mergeGroup rest h1 h2]
  exact hpk

theorem map_key_eq_map_some {key : Rec → Option String} :
    ∀ s : List Rec, (∀ r ∈ s, (key r).isSome = true) →
      s.map key = (s.filterMap key).map some := by
  intro s
  induction s with
  | nil => intro _; rfl
  | cons a t ih =>
    intro ha
    obtain ⟨ka, hka⟩ := Option.isSome_iff_exists.mp (ha a (List.mem_cons_self a t))
    rw [List.map_cons, List.filterMap_cons_some hka, List.map_cons, hka,
      ih fun r hr => ha r (List.mem_cons_of_mem a hr)]

theorem map_some_inj {α : Type} {a b : List α} (h : a.map some = b.map some) : a = b :=
  List.map_injective_iff.mpr (fun _ _ hxy => Option.some.inj hxy) h

theorem filterMap_groupMerge_map_g_nodup {key : Rec → Option String} {s : List Rec}
    (g : Rec → Option String)
    (hg : ∀ p rest k, groupFor s key k = p :: rest → g (mergeGroup p rest) = g p)
    (hinj : ∀ p₁ ∈ s, ∀ p₂ ∈ s, g p₁ = g p₂ → p₁ = p₂) :
    ∀ ks : List String, ks.Nodup → (∀ k ∈ ks, ∃ r ∈ s, key r = some k) →
      ((ks.filterMap (groupMerge s key)).map g).Nodup := by
  intro ks
  induction ks with
  | nil => intro _ _; exact List.nodup_nil
  | cons k t ih =>
    intro hknd h2
    have hknd' := List.nodup_cons.mp hknd
    obtain ⟨r, hr, hk⟩ := h2 k (List.mem_cons_self k t)
    cases hgf : groupFor s key k with
    | nil => exact absurd hgf (groupFor_ne_nil ⟨r, hr, hk⟩)
    | cons p rest =>
      have hgm : groupMerge s key k = some (mergeGroup p rest) := by rw [groupMerge, hgf]
      rw [List.filterMap_cons_some hgm, List.map_cons, List.nodup_cons]
      constructor
      · rw [hg p rest k hgf]
        intro hmem
        obtain ⟨r', hr', hgr'⟩ := List.mem_map.mp hmem
        obtain ⟨k', hk', hr'2⟩ := List.mem_filterMap.mp hr'
        rw [groupMerge] at hr'2
        cases hgf' : groupFor s key k' with
        | nil => rw [hgf'] at hr'2; simp at hr'2
        | cons p' rest' =>
          rw [hgf'] at hr'2
          have hr'3 : mergeGroup p' rest' = r' := by simpa using hr'2
          rw [← hr'3, hg p' rest' k' hgf'] at hgr'
          have hp'eq : p' = p := hinj p' (groupFor_head hgf').1 p (groupFor_head hgf).1 hgr'
          have ha1 := (groupFor_head hgf').2
          have ha2 := (groupFor_head hgf).2
          rw [hp'eq] at ha1
          exact hknd'.1 (Option.some.inj (ha1.symm.trans ha2) ▸ hk')
      · exact ih hknd'.2 fun k2 hk2 => h2 k2 (List.mem_cons_of_mem k hk2)

theorem eq_of_perm_of_map_eq {α β : Type} (f : α → β) :
    ∀ {l₁ l₂ : List α}, l₁.Perm l₂ → l₁.map f = l₂.map f → (l₁.map f).Nodup → l₁ = l₂ := by
  intro l₁
  induction l₁ with
  | nil =>
    intro l₂ hp _ _
    exact (hp.symm.eq_nil).symm
  | cons a t₁ ih =>
    intro l₂ hp hm hnd
    cases l₂ with
    | nil => exact absurd hp.eq_nil (by simp)
    | cons b t₂ =>
      rw [List.map_cons, List.map_cons] at hm
      have hfab : f a = f b := (List.cons_eq_cons.mp hm).1
      have htm : t₁.map f = t₂.map f := (List.cons_eq_cons.mp hm).2
      have hab : a = b := by
        by_contra hne
        have hamem : a ∈ b :: t₂ := hp.mem_iff.mp (List.mem_cons_self a t₁)
        have hat2 : a ∈ t₂ := by
          rcases List.mem_cons.mp hamem with h | h
          · exact absurd h hne
          · exact h
        have hfa : f a ∈ t₂.map f := List.mem_map_of_mem f hat2
        rw [← htm] at hfa
        rw [List.map_cons, List.nodup_cons] at hnd
        exact hnd.1 hfa
      subst hab
      have hp' := hp.cons_inv
      rw [List.map_cons, List.nodup_cons] at hnd
      rw [ih hp' htm hnd.2]

theorem filterMap_nameKey_eq_map (l : List Rec) :
    l.filterMap nameKeyF = l.map fullNameKey :=
  congrFun (List.filterMap_eq_map fullNameKey) l

theorem run2_eq_run1 (m : List Rec)
    (hnpm : ∀ r ∈ m, r.firstname ≠ none ∧ r.lastname ≠ none)
    (hEsome : ∀ r ∈ m, (emailKeyF r).isSome = true)
    (hEnodup : (m.filterMap emailKeyF).Nodup) :
    mergeByKey nameKeyF (mergeByKey emailKeyF (mergeByKey nameKeyF m)) =
      mergeByKey nameKeyF m := by
  have hsm : (sortByDateDesc m).Perm m := List.perm_insertionSort dateDescRel m
  have hnps : ∀ r ∈ sortByDateDesc m, r.firstname ≠ none ∧ r.lastname ≠ none :=
    fun r hr => hnpm r (hsm.mem_iff.mp hr)
  have hEsome' : ∀ r ∈ sortByDateDesc m, (emailKeyF r).isSome = true :=
    fun r hr => hEsome r (hsm.mem_iff.mp hr)
  -- the first run's output and its name keys
  have hnpO : ∀ r ∈ mergeByKey nameKeyF m, r.firstname ≠ none ∧ r.lastname ≠ none :=
    namesPresent_mergeByKey hnpm
  have hOkeys : (mergeByKey nameKeyF m).map nameKeyF =
      (keysOf nameKeyF (sortByDateDesc m)).map some :=
    mergeByKey_map_key (nameKey_preserved hnps)
  have hOfnk : (mergeByKey nameKeyF m).map fullNameKey =
      keysOf nameKeyF (sortByDateDesc m) := by
    apply map_some_inj
    have hcomp : ((mergeByKey nameKeyF m).map fullNameKey).map some =
        (mergeByKey nameKeyF m).map nameKeyF := by
      rw [List.map_map]
      rfl
    rw [hcomp, hOkeys]
  have hKS1nodup : (keysOf nameKeyF (sortByDateDesc m)).Nodup := keysOf_nodup _ _
  have hKS1sorted : List.Sorted strLe (keysOf nameKeyF (sortByDateDesc m)) :=
    keysOf_sorted _ _
  -- the first run's output: emails present
  have hOsome : ∀ r ∈ mergeByKey nameKeyF m, (emailKeyF r).isSome = true := by
    intro r hr
    obtain ⟨p, rest, k, hrr, hps, _, _⟩ := mergeByKey_member hr
    obtain ⟨e, he⟩ := Option.isSome_iff_exists.mp (hEsome' p hps)
    rw [hrr, show emailKeyF (mergeGroup p rest) = some e from mergeGroup_email_some rest he]
    rfl
  -- the first run's output: emails pairwise distinct
  have hmEnodup : ((sortByDateDesc m).map emailKeyF).Nodup := by
    have h1 : m.map emailKeyF = (m.filterMap emailKeyF).map some :=
      map_key_eq_map_some m hEsome
    have h2 : (m.map emailKeyF).Nodup := by
      rw [h1]
      exact List.Nodup.map (fun _ _ hxy => Option.some.inj hxy) hEnodup
    exact ((hsm.map emailKeyF).nodup_iff).mpr h2
  have hOemailNodup : ((mergeByKey nameKeyF m).map emailKeyF).Nodup := by
    rw [mergeByKey]
    apply filterMap_groupMerge_map_g_nodup emailKeyF
    · intro p rest k hgf
      obtain ⟨e, he⟩ := Option.isSome_iff_exists.mp (hEsome' p (groupFor_head hgf).1)
      rw [show emailKeyF (mergeGroup p rest) = some e from mergeGroup_email_some rest he]
      exact he.symm
    · exact fun p₁ h₁ p₂ h₂ hg => List.inj_on_of_nodup_map hmEnodup h₁ h₂ hg
    · exact keysOf_nodup _ _
    · exact fun k hk => mem_keysOf.mp hk
  have hOfilterNodup : ((mergeByKey nameKeyF m).filterMap emailKeyF).Nodup := by
    have h1 := hOemailNodup
    rw [map_key_eq_map_some _ hOsome] at h1
    exact List.Nodup.of_map some h1
  -- the first run's output: industries canonical, so singleton merges are identities
  have hOfix : ∀ r ∈ mergeByKey nameKeyF m, mergeGroup r [] = r :=
    fun r hr => mergeGroup_nil_of_canonical (canonicalInd_of_mem_mergeByKey hr)
  -- run 2, email pass: a permutation of the first run's output
  have hAperm : (mergeByKey emailKeyF (mergeByKey nameKeyF m)).Perm
      (mergeByKey nameKeyF m) :=
    mergeByKey_perm_of_singletons emailKeyF _ hOsome hOfilterNodup hOfix
  -- facts transfer to the email-pass output
  have hAnp : ∀ r ∈ mergeByKey emailKeyF (mergeByKey nameKeyF m),
      r.firstname ≠ none ∧ r.lastname ≠ none :=
    fun r hr => hnpO r (hAperm.mem_iff.mp hr)
  have hAfix : ∀ r ∈ mergeByKey emailKeyF (mergeByKey nameKeyF m),
      mergeGroup r [] = r :=
    fun r hr => hOfix r (hAperm.mem_iff.mp hr)
  have hAfnkPerm : ((mergeByKey emailKeyF (mergeByKey nameKeyF m)).map fullNameKey).Perm
      (keysOf nameKeyF (sortByDateDesc m)) := by
    rw [← hOfnk]
    exact hAperm.map fullNameKey
  have hAnkNodup : ((mergeByKey emailKeyF (mergeByKey nameKeyF m)).filterMap
      nameKeyF).Nodup := by
    rw [filterMap_nameKey_eq_map]
    exact hAfnkPerm.nodup_iff.mpr hKS1nodup
  -- run 2, name pass: also a permutation
  have hNAperm : (mergeByKey nameKeyF (mergeByKey emailKeyF (mergeByKey nameKeyF m))).Perm
      (mergeByKey emailKeyF (mergeByKey nameKeyF m)) :=
    mergeByKey_perm_of_singletons nameKeyF _ (fun r _ => rfl) hAnkNodup hAfix
  -- the run-2 name keys coincide with the run-1 name keys
  have hsA : (sortByDateDesc (mergeByKey emailKeyF (mergeByKey nameKeyF m))).Perm
      (mergeByKey emailKeyF (mergeByKey nameKeyF m)) :=
    List.perm_insertionSort dateDescRel _
  have hAnp' : ∀ r ∈ sortByDateDesc (mergeByKey emailKeyF (mergeByKey nameKeyF m)),
      r.firstname ≠ none ∧ r.lastname ≠ none :=
    fun r hr => hAnp r (hsA.mem_iff.mp hr)
  have hNAkeys := mergeByKey_map_key (nameKey_preserved hAnp')
  have hNAfnk : (mergeByKey nameKeyF (mergeByKey emailKeyF (mergeByKey nameKeyF m))).map
      fullNameKey =
      keysOf nameKeyF (sortByDateDesc (mergeByKey emailKeyF (mergeByKey nameKeyF m))) := by
    apply map_some_inj
    have hcomp : ((mergeByKey nameKeyF (mergeByKey emailKeyF (mergeByKey nameKeyF m))).map
        fullNameKey).map some =
        (mergeByKey nameKeyF (mergeByKey emailKeyF (mergeByKey nameKeyF m))).map
          nameKeyF := by
      rw [List.map_map]
      rfl
    rw [hcomp, hNAkeys]
  have hXperm : ((sortByDateDesc (mergeByKey emailKeyF (mergeByKey nameKeyF m))).filterMap
      nameKeyF).Perm (keysOf nameKeyF (sortByDateDesc m)) := by
    rw [filterMap_nameKey_eq_map]
    exact ((hsA.map fullNameKey).trans hAfnkPerm)
  have hkeq : keysOf nameKeyF (sortByDateDesc (mergeByKey emailKeyF
      (mergeByKey nameKeyF m))) = keysOf nameKeyF (sortByDateDesc m) := by
    rw [keysOf, List.dedup_eq_self.mpr (hXperm.nodup_iff.mpr hKS1nodup)]
    exact @List.eq_of_perm_of_sorted String strLe strLe_isAntisymm _ _
      ((sortStrings_perm _).trans hXperm) (sortStrings_sorted _) hKS1sorted
  -- the two runs agree
  apply eq_of_perm_of_map_eq fullNameKey (hNAperm.trans hAperm)
  · rw [hNAfnk, hkeq, hOfnk]
  · rw [hNAfnk, hkeq]
    exact hKS1nodup

/-- C7 (corrected), amended claim.  `mergeDuplicates` is idempotent on
inputs whose records all carry a present (non-null) first and last name: a
second run (date reparsing is the identity on already-parsed dates) returns
the first run's output list unchanged, so in particular the survivor
identities and industries are the same and no further merging occurs.
(Without the proviso a second run can merge further; see the
counterexample.) -/
theorem c7_idempotent_when_names_present (l : List Rec)
    (hnp : ∀ r ∈ l, r.firstname ≠ none ∧ r.lastname ≠ none) :
    merge_duplicates (merge_duplicates l) = merge_duplicates l := by
  have hnpE : ∀ r ∈ mergeByKey emailKeyF l, r.firstname ≠ none ∧ r.lastname ≠ none :=
    namesPresent_mergeByKey hnp
  have hEsome : ∀ r ∈ mergeByKey emailKeyF l, (emailKeyF r).isSome = true := by
    intro r hr
    obtain ⟨p, rest, k, hrr, _, hpk, _⟩ := mergeByKey_member hr
    rw [hrr, show emailKeyF (mergeGroup p rest) = some k from
      mergeGroup_email_some rest hpk]
    rfl
  have hEkeys : (mergeByKey emailKeyF l).map emailKeyF =
      (keysOf emailKeyF (sortByDateDesc l)).map some :=
    mergeByKey_map_key emailKey_preserved
  have hEnodup : ((mergeByKey emailKeyF l).filterMap emailKeyF).Nodup := by
    have h1 : ((mergeByKey emailKeyF l).map emailKeyF).Nodup := by
      rw [hEkeys]
      exact List.Nodup.map (fun _ _ hxy => Option.some.inj hxy) (keysOf_nodup _ _)
    rw [map_key_eq_map_some _ hEsome] at h1
    exact List.Nodup.of_map some h1
  exact run2_eq_run1 (mergeByKey emailKeyF l) hnpE hEsome hEnodup

/-- Witness for C7's amended claim: the two Jane Doe records (both names
present). -/
theorem c7_idempotent_when_names_present_witness :
    (∀ r ∈ [jA, jB], r.firstname ≠ none ∧ r.lastname ≠ none) ∧
    merge_duplicates (merge_duplicates [jA, jB]) = merge_duplicates [jA, jB] :=
  ⟨by decide, c7_idempotent_when_names_present [jA, jB] (by decide)⟩
